import Mathlib

/-!
Verification of `migrate_assets.py`: a script migrating a flat directory of
image files into an Xcode asset catalog (`.xcassets`).

The script is shallowly embedded:
* A filesystem is a finite association list from absolute canonical paths
  (lists of name components) to entries (directories, or files with content).
  Canonical absolute paths mean `Path.resolve()` is the identity, so the
  resolution step in `safe_rmtree` is implicit in the representation.
* File contents are either raw bytes (copied images) or JSON documents
  (`json.dump` is deterministic for a fixed document and indent, so
  byte-identity of manifest files coincides with equality of the documents).
* Each Python function of the script becomes a Lean function on this state;
  OS failures of `shutil.copy2` (e.g. permissions) are modelled by a fixed
  set of uncopyable source paths carried in the state, and `os.makedirs`
  fails exactly when a non-directory entry blocks the path, as on a real
  POSIX system.  `os.path.sep` is `"/"` (POSIX).
* Python string operations used by the script (`str.endswith`, slicing,
  `Path.stem` / `Path.suffix`, `str.lower`) are modelled on `List Char`.
-/

namespace MigrateAssets

/-- An absolute canonical filesystem path, as its list of name components
(`[]` is the filesystem root `/`). -/
abbrev PathC := List String

/-- JSON documents as produced by `json.dump` (object fields keep insertion
order, matching Python dict semantics). -/
inductive Json where
  | jstr (s : String)
  | jnum (n : Nat)
  | jarr (elems : List Json)
  | jobj (fields : List (String × Json))

/-- Content of a regular file: raw bytes, or a JSON document written by
`json.dump`. -/
inductive FData where
  | bytes (b : String)
  | jdata (j : Json)

/-- A filesystem entry: a directory or a regular file with its content. -/
inductive Entry where
  | dir
  | file (d : FData)

/-- Filesystem state: a finite map from paths to entries, plus the fixed set
of source paths whose copy fails with an `OSError` (e.g. permissions). -/
structure Fs where
  entries : List (PathC × Entry)
  uncopyable : List PathC

/-- Lookup in the entries association list. -/
def lookupE : List (PathC × Entry) → PathC → Option Entry
  | [], _ => none
  | (k, v) :: rest, p => if k = p then some v else lookupE rest p

/-- Lookup the entry at a path. -/
def Fs.lookup (s : Fs) (p : PathC) : Option Entry :=
  lookupE s.entries p

/-- `Path.exists()`. -/
def Fs.pathExists (s : Fs) (p : PathC) : Bool :=
  (s.lookup p).isSome

/-- `Path.is_dir()`. -/
def Fs.isDir (s : Fs) (p : PathC) : Bool :=
  match s.lookup p with
  | some .dir => true
  | _ => false

/-- Remove any entry at exactly path `p`. -/
def eraseE (l : List (PathC × Entry)) (p : PathC) : List (PathC × Entry) :=
  l.filter (fun e => decide (e.1 ≠ p))

/-- Write (create or overwrite) a regular file at `p` with content `d`
(`open(p, "w")` / the write half of `shutil.copy2`). -/
def Fs.writeFile (s : Fs) (p : PathC) (d : FData) : Fs :=
  { s with entries := (p, Entry.file d) :: eraseE s.entries p }

/-- `shutil.rmtree p`: remove `p` and everything below it. -/
def Fs.rmtree (s : Fs) (p : PathC) : Fs :=
  { s with entries := s.entries.filter (fun e => !(p.isPrefixOf e.1)) }

/-- All prefixes of a path, from `[]` up to the path itself. -/
def prefixesOf (p : PathC) : List PathC :=
  (List.range (p.length + 1)).map (fun j => p.take j)

/-- `os.makedirs p (exist_ok := true)` is blocked (raises `OSError`) exactly
when some prefix of `p` already exists as a regular file. -/
def Fs.mkdirBlocked (s : Fs) (p : PathC) : Bool :=
  (prefixesOf p).any (fun q =>
    match s.lookup q with
    | some (.file _) => true
    | _ => false)

/-- Create missing directories along a prefix list. -/
def mkdirsE (es : List (PathC × Entry)) (ps : List PathC) : List (PathC × Entry) :=
  ps.foldl (fun acc q => if (lookupE acc q).isNone then (q, Entry.dir) :: acc else acc) es

/-- `os.makedirs p (exist_ok := true)`: `none` models the caught `OSError`. -/
def Fs.makedirs (s : Fs) (p : PathC) : Option Fs :=
  if s.mkdirBlocked p then none
  else some { s with entries := mkdirsE s.entries (prefixesOf p) }

/-- `shutil.copy2 src tgt`: succeeds iff `src` is a regular file outside the
uncopyable set; copies the bytes (and metadata) to `tgt`. -/
def Fs.copy2 (s : Fs) (src tgt : PathC) : Option Fs :=
  match s.lookup src with
  | some (.file d) => if src ∈ s.uncopyable then none else some (s.writeFile tgt d)
  | _ => none

/-- The names of the immediate children of `p` in the entries list. -/
def childrenE (es : List (PathC × Entry)) (p : PathC) : List String :=
  (es.filterMap (fun e =>
    if e.1.length = p.length + 1 && p.isPrefixOf e.1 then e.1.getLast? else none)).dedup

/-- `os.listdir p`: the names in directory `p`; `none` models the raised
`OSError` when `p` is missing or not a directory. -/
def Fs.listdir (s : Fs) (p : PathC) : Option (List String) :=
  match s.lookup p with
  | some .dir => some (childrenE s.entries p)
  | _ => none

/-! ### Python string operations used by the script -/

/-- Python `s.endswith(suffix)`. -/
def strEndsWith (s suffix : String) : Bool :=
  suffix.data.isSuffixOf s.data

/-- Python slicing `s[:-n]` for `0 < n ≤ len(s)` (used as `stem[:-len("@2x")]`). -/
def strDropRight (s : String) (n : Nat) : String :=
  ⟨s.data.take (s.data.length - n)⟩

/-- Python `s[0]` as a one-character string (used as `scale[0]`). -/
def strHead (s : String) : String :=
  ⟨s.data.take 1⟩

/-- Python `s.lower()` on the ASCII range (file extensions are ASCII). -/
def strLower (s : String) : String :=
  ⟨s.data.map (fun c => if 'A' ≤ c ∧ c ≤ 'Z' then Char.ofNat (c.toNat + 32) else c)⟩

/-- Index of the last `'.'` in a character list (`name.rfind('.')`). -/
def rfindDot (l : List Char) : Option Nat :=
  match l.reverse.findIdx? (fun c => c = '.') with
  | some j => some (l.length - 1 - j)
  | none => none

/-- `PurePath(name).suffix`: the final extension, empty when the only dot is
leading or trailing. -/
def pySuffix (name : String) : String :=
  match rfindDot name.data with
  | some i => if 0 < i ∧ i < name.data.length - 1 then ⟨name.data.drop i⟩ else ""
  | none => ""

/-- `PurePath(name).stem`: the name with its final extension removed. -/
def pyStem (name : String) : String :=
  match rfindDot name.data with
  | some i => if 0 < i ∧ i < name.data.length - 1 then ⟨name.data.take i⟩ else name
  | none => name

/-! ### The script's functions

The Lean functions below mirror, in order, `get_default_paths`,
`safe_rmtree`, `create_imageset`, `migrate_assets` and `main` of
`migrate_assets.py`.  The project root (the directory holding the script,
`get_project_root`) is passed as the explicit parameter `root`.
-/

/-- The string form `str(path)` of a resolved absolute path (POSIX). -/
def pathStrAux : PathC → String
  | [] => ""
  | c :: cs => "/" ++ c ++ pathStrAux cs

/-- `str(path.resolve())`; the root prints as `"/"`. -/
def pathStr (p : PathC) : String :=
  if p = [] then "/" else pathStrAux p

/-- Componentwise longest common prefix, the core of `os.path.commonpath`. -/
def commonPrefix : PathC → PathC → PathC
  | a :: as1, b :: bs => if a = b then a :: commonPrefix as1 bs else []
  | _, _ => []

/-- `os.path.commonpath([e, p])` on two absolute resolved POSIX paths, as a
string. -/
def commonpathStr (e p : PathC) : String :=
  pathStr (commonPrefix e p)

/-- `safe_rmtree(path, expected_parent)` (lines 36-74): returns the boolean
result and the possibly-changed filesystem.  On canonical absolute paths
`path.resolve()` is the identity; `os.path.sep = "/"`; the `except
ValueError` branch of `commonpath` is unreachable for two absolute POSIX
paths, and the final `shutil.rmtree` succeeds in this model. -/
def safe_rmtree (s : Fs) (path expected_parent : PathC) : Bool × Fs :=
  if ¬ s.pathExists path then (true, s)
  else
    let path_str := pathStr path
    if path_str = "" ∨ path_str = "/" ∨ path_str = "/" then (false, s)
    else
      let expected_str := pathStr expected_parent
      if commonpathStr expected_parent path ≠ expected_str then (false, s)
      else (true, s.rmtree path)

/-- The fixed scale list (line 199). -/
def scalesList : List String := ["1x", "2x", "3x"]

/-- The recognized image extensions (line 198). -/
def image_extensions : List String := [".png", ".jpg", ".jpeg"]

/-- The variant filename for a scale (lines 108-113): no suffix for `1x`,
`f"{base_name}@{scale[0]}x{ext}"` otherwise. -/
def variantName (base_name ext scale : String) : String :=
  if scale = "1x" then base_name ++ ext
  else base_name ++ "@" ++ strHead scale ++ "x" ++ ext

/-- One manifest entry (lines 117-125): `idiom` and `scale` always, then
`filename` exactly when the copy succeeded. -/
def imageEntry (scale : String) (filename : Option String) : Json :=
  .jobj ([("idiom", .jstr "universal"), ("scale", .jstr scale)] ++
    (match filename with
     | some f => [("filename", .jstr f)]
     | none => []))

/-- The imageset `Contents.json` document (lines 133-139). -/
def contentsJson (images : List Json) : Json :=
  .jobj [("images", .jarr images),
         ("info", .jobj [("author", .jstr "xcode"), ("version", .jnum 1)])]

/-- The catalog root `Contents.json` document (lines 187-192). -/
def rootJson : Json :=
  .jobj [("info", .jobj [("author", .jstr "xcode"), ("version", .jnum 1)])]

/-- The imageset directory for a base name (line 97). -/
def imagesetDir (dest_dir : PathC) (base_name : String) : PathC :=
  dest_dir ++ [base_name ++ ".imageset"]

/-- The body of the scale loop of `create_imageset` (lines 107-130), folded
over the accumulated images array and filesystem. -/
def scaleStep (source_dir isd : PathC) (base_name ext : String)
    (acc : List Json × Fs) (scale : String) : List Json × Fs :=
  let variant_name := variantName base_name ext scale
  let source_file := source_dir ++ [variant_name]
  if acc.2.pathExists source_file then
    match acc.2.copy2 source_file (isd ++ [variant_name]) with
    | some st2 => (acc.1 ++ [imageEntry scale (some variant_name)], st2)
    | none => (acc.1 ++ [imageEntry scale none], acc.2)
  else (acc.1 ++ [imageEntry scale none], acc.2)

/-- `create_imageset(source_dir, dest_dir, base_name, ext, scales)`
(lines 77-149).  The final `Contents.json` write has its parent directory
ensured by the initial `os.makedirs`, and succeeds in this model. -/
def create_imageset (s : Fs) (source_dir dest_dir : PathC)
    (base_name ext : String) (scales : List String) : Bool × Fs :=
  let isd := imagesetDir dest_dir base_name
  match s.makedirs isd with
  | none => (false, s)
  | some s1 =>
    let r := scales.foldl (scaleStep source_dir isd base_name ext) ([], s1)
    (true, r.2.writeFile (isd ++ ["Contents.json"]) (.jdata (contentsJson r.1)))

/-- The listing filter (lines 202-203). -/
def filterImages (names : List String) : List String :=
  names.filter (fun f => image_extensions.contains (strLower (pySuffix f)))

/-- Stripping a trailing scale suffix from a stem (lines 216-219). -/
def stripScale (stem : String) : String :=
  if strEndsWith stem "@2x" then strDropRight stem 3
  else if strEndsWith stem "@3x" then strDropRight stem 3
  else stem

/-- The discovered base-name set (lines 209-221): each listed name passing
the extension filter contributes `(stripped stem, suffix)`; Python's `set`
is modelled by `dedup` (and the later `sorted` makes iteration order
immaterial, see `buildOrder_of_perm`). -/
def discoverGroups (names : List String) : List (String × String) :=
  ((filterImages names).map (fun f => (stripScale (pyStem f), pySuffix f))).dedup

/-- Lexicographic comparison of character lists by Unicode code point —
Python's `str` ordering (`strLt_iff` identifies it with the standard order
on `String`). -/
def charListLt : List Char → List Char → Bool
  | _, [] => false
  | [], _ :: _ => true
  | a :: as, b :: bs =>
    if a.toNat < b.toNat then true
    else if b.toNat < a.toNat then false
    else charListLt as bs

/-- Python `s1 < s2`. -/
def strLt (a b : String) : Bool :=
  charListLt a.data b.data

/-- Python `s1 <= s2`. -/
def strLe (a b : String) : Bool :=
  strLt a b || a == b

/-- Python tuple comparison `(a1, a2) <= (b1, b2)` on string pairs, the order
used by `sorted(base_names)`. -/
def pairLe (a b : String × String) : Bool :=
  if a.1 = b.1 then strLe a.2 b.2 else strLt a.1 b.1

/-- `sorted(base_names)` (line 225): `sorted` returns the permutation of its
input ordered by `pairLe`; since `pairLe` is a total antisymmetric order and
the grouped pairs are deduplicated, that list is unique, and an insertion
sort computes it (`buildOrder_sorted`, `buildOrder_perm`). -/
def buildOrder (names : List String) : List (String × String) :=
  (discoverGroups names).insertionSort (fun a b => pairLe a b = true)

/-- The processing loop over the sorted groups (lines 224-229). -/
def processGroups (s : Fs) (source_dir dest_dir : PathC)
    (groups : List (String × String)) : Bool × Fs :=
  groups.foldl (fun acc g =>
    let r := create_imageset acc.2 source_dir dest_dir g.1 g.2 scalesList
    (acc.1 && r.1, r.2)) (true, s)

/-- `migrate_assets(source_dir, dest_dir)` (lines 152-231), with the script
location `root` (`get_project_root()`) as an explicit parameter. -/
def migrate_assets (s : Fs) (root source_dir dest_dir : PathC) : Bool × Fs :=
  if ¬ s.pathExists source_dir then (false, s)
  else if ¬ s.isDir source_dir then (false, s)
  else
    let expected_parent := root ++ ["Sources"]
    let r := safe_rmtree s dest_dir expected_parent
    if ¬ r.1 then (false, r.2)
    else
      match r.2.makedirs dest_dir with
      | none => (false, r.2)
      | some s2 =>
        let s3 := s2.writeFile (dest_dir ++ ["Contents.json"]) (.jdata rootJson)
        match s3.listdir source_dir with
        | none => (false, s3)
        | some names => processGroups s3 source_dir dest_dir (buildOrder names)

/-- The exit code chosen by `main` (lines 251-258). -/
def exitCode (success : Bool) : Nat :=
  if success then 0 else 1

/-! ### The path resolver of `main` (lines 234-246)

`main` works with `pathlib.Path` values built from strings; only their
construction, truthiness and the `or` fallback matter here, so a `Path` is
modelled by its string representation after construction. -/

/-- A `pathlib.Path` value, by its representation after the constructor's
normalization; the constructor turns the empty string into `"."`
(`Path("")` is `Path(".")`). -/
structure PyPath where
  rep : String
deriving DecidableEq

/-- `Path(x)` for a string `x`. -/
def pyPathOf (x : String) : PyPath :=
  ⟨if x = "" then "." else x⟩

/-- Python truthiness of a `pathlib.Path`: the class defines neither
`__bool__` nor `__len__`, so every `Path` object is truthy — including
`Path(".")` obtained from `Path("")`. -/
def pyPathBool (_ : PyPath) : Bool :=
  true

/-- Python `a or b` evaluated on two `Path` values. -/
def pyOrPath (a b : PyPath) : PyPath :=
  if pyPathBool a then a else b

/-- `os.environ.get(key, "")`. -/
def envGet (environ : List (String × String)) (key : String) : String :=
  (environ.lookup key).getD ""

/-- `get_default_paths()` (lines 28-33), given the script directory `root`. -/
def get_default_paths (root : String) : PyPath × PyPath :=
  (⟨root ++ "/Sources/ClaudeUsagePro/Assets"⟩,
   ⟨root ++ "/Sources/ClaudeUsagePro/Assets.xcassets"⟩)

/-- The path resolution performed by `main` (lines 236-246): environment
values (with `""` default) wrapped in `Path` and combined with the defaults
by `or`, then positional CLI arguments override. -/
def resolvePaths (root : String) (environ : List (String × String))
    (argv : List String) : PyPath × PyPath :=
  let defaults := get_default_paths root
  let source_dir := pyOrPath (pyPathOf (envGet environ "ASSET_SOURCE_DIR")) defaults.1
  let dest_dir := pyOrPath (pyPathOf (envGet environ "ASSET_DEST_DIR")) defaults.2
  let source_dir := if argv.length ≥ 2 then pyPathOf (argv.getD 1 "") else source_dir
  let dest_dir := if argv.length ≥ 3 then pyPathOf (argv.getD 2 "") else dest_dir
  (source_dir, dest_dir)

/-! ### Basic lemmas about the filesystem operations -/

theorem lookupE_cons (k : PathC) (v : Entry) (tl : List (PathC × Entry)) (q : PathC) :
    lookupE ((k, v) :: tl) q = if k = q then some v else lookupE tl q := rfl

theorem lookupE_eraseE (l : List (PathC × Entry)) (p q : PathC) :
    lookupE (eraseE l p) q = if q = p then none else lookupE l q := by
  induction l with
  | nil => simp [eraseE, lookupE]
  | cons hd tl ih =>
    obtain ⟨k, v⟩ := hd
    by_cases hkp : k = p
    · have hdrop : eraseE ((k, v) :: tl) p = eraseE tl p := by
        simp [eraseE, List.filter_cons, hkp]
      rw [hdrop, ih]
      by_cases hqp : q = p
      · simp [hqp]
      · have hkq : k ≠ q := by rw [hkp]; exact fun h => hqp h.symm
        simp [hqp, lookupE_cons, hkq]
    · have hkeep : eraseE ((k, v) :: tl) p = (k, v) :: eraseE tl p := by
        simp [eraseE, List.filter_cons, hkp]
      rw [hkeep, lookupE_cons, lookupE_cons, ih]
      by_cases hkq : k = q
      · have hqp : ¬ q = p := by rw [← hkq]; exact hkp
        simp [hkq, hqp]
      · simp [hkq]

theorem Fs.lookup_writeFile (s : Fs) (p : PathC) (d : FData) (q : PathC) :
    (s.writeFile p d).lookup q = if q = p then some (Entry.file d) else s.lookup q := by
  show lookupE ((p, Entry.file d) :: eraseE s.entries p) q = _
  rw [lookupE_cons, lookupE_eraseE]
  by_cases h : q = p
  · simp [h]
  · have : p ≠ q := fun hh => h hh.symm
    simp [h, this, Fs.lookup]

theorem Fs.lookup_rmtree (s : Fs) (p : PathC) (q : PathC) :
    (s.rmtree p).lookup q = if p <+: q then none else s.lookup q := by
  have main : ∀ l : List (PathC × Entry),
      lookupE (l.filter (fun e => !(p.isPrefixOf e.1))) q =
        if p <+: q then none else lookupE l q := by
    intro l
    induction l with
    | nil => simp [lookupE]
    | cons hd tl ih =>
      obtain ⟨k, v⟩ := hd
      by_cases hpre : p.isPrefixOf k
      · have hdrop : List.filter (fun e => !(p.isPrefixOf e.1)) ((k, v) :: tl) =
            List.filter (fun e => !(p.isPrefixOf e.1)) tl := by
          simp [List.filter_cons, hpre]
        rw [hdrop, ih]
        by_cases hq : p <+: q
        · simp [hq]
        · have hkq : k ≠ q := by
            rintro rfl
            exact hq (List.isPrefixOf_iff_prefix.mp hpre)
          simp [hq, lookupE_cons, hkq]
      · have hkeep : List.filter (fun e => !(p.isPrefixOf e.1)) ((k, v) :: tl) =
            (k, v) :: List.filter (fun e => !(p.isPrefixOf e.1)) tl := by
          simp [List.filter_cons, hpre]
        rw [hkeep, lookupE_cons, ih, lookupE_cons]
        by_cases hkq : k = q
        · subst hkq
          have hq : ¬ p <+: k := fun h => hpre (List.isPrefixOf_iff_prefix.mpr h)
          simp [hq]
        · simp [hkq]
  exact main s.entries

theorem lookupE_mkdirsE (es : List (PathC × Entry)) (ps : List PathC) (q : PathC) :
    lookupE (mkdirsE es ps) q =
      if q ∈ ps ∧ (lookupE es q).isNone then some Entry.dir else lookupE es q := by
  induction ps generalizing es with
  | nil => simp [mkdirsE]
  | cons hd tl ih =>
    simp only [mkdirsE, List.foldl_cons] at ih ⊢
    by_cases hh : (lookupE es hd).isNone
    · rw [if_pos hh, ih]
      by_cases hq : q = hd
      · subst hq
        simp [lookupE_cons, hh]
      · have hk : hd ≠ q := fun h => hq h.symm
        rw [lookupE_cons, if_neg hk]
        by_cases hmem : q ∈ tl
        · by_cases hn : (lookupE es q).isNone
          · rw [if_pos ⟨hmem, hn⟩, if_pos ⟨List.mem_cons_of_mem _ hmem, hn⟩]
          · rw [if_neg (fun h => hn h.2), if_neg (fun h => hn h.2)]
        · have h2 : q ∉ hd :: tl := by
            intro h
            rcases List.mem_cons.mp h with h | h
            exacts [hq h, hmem h]
          rw [if_neg (fun h => hmem h.1), if_neg (fun h => h2 h.1)]
    · rw [if_neg hh, ih]
      by_cases hq : q = hd
      · subst hq
        rw [if_neg (fun h => hh h.2), if_neg (fun h => hh h.2)]
      · by_cases hmem : q ∈ tl
        · by_cases hn : (lookupE es q).isNone
          · rw [if_pos ⟨hmem, hn⟩, if_pos ⟨List.mem_cons_of_mem _ hmem, hn⟩]
          · rw [if_neg (fun h => hn h.2), if_neg (fun h => hn h.2)]
        · have h2 : q ∉ hd :: tl := by
            intro h
            rcases List.mem_cons.mp h with h | h
            exacts [hq h, hmem h]
          rw [if_neg (fun h => hmem h.1), if_neg (fun h => h2 h.1)]

theorem Fs.lookup_makedirs {s s' : Fs} {p : PathC} (h : s.makedirs p = some s') (q : PathC) :
    s'.lookup q =
      if q ∈ prefixesOf p ∧ (s.lookup q).isNone then some Entry.dir else s.lookup q := by
  simp only [Fs.makedirs] at h
  by_cases hb : s.mkdirBlocked p
  · simp [hb] at h
  · simp only [hb, Bool.false_eq_true, if_neg, ite_false, Option.some.injEq] at h
    subst h
    exact lookupE_mkdirsE s.entries (prefixesOf p) q

theorem Fs.makedirs_isSome_iff (s : Fs) (p : PathC) :
    (s.makedirs p).isSome ↔ s.mkdirBlocked p = false := by
  by_cases hb : s.mkdirBlocked p <;> simp [Fs.makedirs, hb]

theorem Fs.uncopyable_writeFile (s : Fs) (p : PathC) (d : FData) :
    (s.writeFile p d).uncopyable = s.uncopyable := rfl

theorem Fs.uncopyable_rmtree (s : Fs) (p : PathC) :
    (s.rmtree p).uncopyable = s.uncopyable := rfl

theorem Fs.uncopyable_makedirs {s s' : Fs} {p : PathC} (h : s.makedirs p = some s') :
    s'.uncopyable = s.uncopyable := by
  simp only [Fs.makedirs] at h
  by_cases hb : s.mkdirBlocked p
  · simp [hb] at h
  · simp only [hb, Bool.false_eq_true, if_neg, ite_false, Option.some.injEq] at h
    subst h
    rfl

/-! ### Path-string lemmas: the `commonpath` containment check -/

theorem commonPrefix_prefix_left (e d : PathC) : commonPrefix e d <+: e := by
  induction e generalizing d with
  | nil => cases d <;> simp [commonPrefix]
  | cons a as1 ih =>
    cases d with
    | nil => simp [commonPrefix]
    | cons b bs =>
      by_cases hab : a = b
      · subst hab
        obtain ⟨r, hr⟩ := ih bs
        exact ⟨r, by simp [commonPrefix, hr]⟩
      · simp [commonPrefix, hab]

theorem commonPrefix_eq_left_iff (e d : PathC) : commonPrefix e d = e ↔ e <+: d := by
  induction e generalizing d with
  | nil => cases d <;> simp [commonPrefix]
  | cons a as1 ih =>
    cases d with
    | nil => simp [commonPrefix]
    | cons b bs =>
      by_cases hab : a = b
      · subst hab
        simp [commonPrefix, List.cons_prefix_cons, ih]
      · simp [commonPrefix, List.cons_prefix_cons, hab]

theorem pathStrAux_append (p q : PathC) :
    pathStrAux (p ++ q) = pathStrAux p ++ pathStrAux q := by
  induction p with
  | nil => simp [pathStrAux]
  | cons c cs ih => simp [pathStrAux, ih, String.append_assoc]

theorem pathStrAux_length (p : PathC) :
    (pathStrAux p).length = p.foldr (fun c n => 1 + c.length + n) 0 := by
  induction p with
  | nil => rfl
  | cons c cs ih =>
    show ("/" ++ c ++ pathStrAux cs).length = _
    rw [String.length_append, String.length_append, ih, List.foldr_cons]
    have h1 : ("/" : String).length = 1 := rfl
    rw [h1]

theorem pathStrAux_length_pos {p : PathC} (hp : p ≠ []) :
    0 < (pathStrAux p).length := by
  cases p with
  | nil => exact absurd rfl hp
  | cons c cs =>
    rw [pathStrAux_length, List.foldr_cons]
    omega

theorem pathStrAux_length_lt {q p : PathC} (hqp : q <+: p) (hne : q ≠ p) :
    (pathStrAux q).length < (pathStrAux p).length := by
  obtain ⟨r, rfl⟩ := hqp
  have hr : r ≠ [] := by rintro rfl; simp at hne
  rw [pathStrAux_append, String.length_append]
  have := pathStrAux_length_pos hr
  omega

/-- The containment check of `safe_rmtree` (line 61):
`os.path.commonpath([expected, path]) == expected` holds exactly when the
expected parent is a componentwise prefix of the path; the expected parent's
components are non-empty (it is a canonical path). -/
theorem commonpath_check_iff (e p : PathC) (he : "" ∉ e) :
    commonpathStr e p = pathStr e ↔ e <+: p := by
  constructor
  · intro h
    rw [← commonPrefix_eq_left_iff (d := p)]
    by_contra hne
    have hpre : commonPrefix e p <+: e := commonPrefix_prefix_left e p
    unfold commonpathStr pathStr at h
    by_cases hcp : commonPrefix e p = []
    · rw [hcp] at h
      simp only [if_pos rfl] at h
      have hel : e ≠ [] := by rintro rfl; exact hne hcp
      rw [if_neg hel] at h
      have h1 : (pathStrAux e).length = 1 := by rw [← h]; rfl
      cases e with
      | nil => exact hel rfl
      | cons c cs =>
        have hc : c ≠ "" := fun hc => he (by simp [hc])
        have hcl : 0 < c.length := by
          cases hcc : c.data with
          | nil => exact absurd (by cases c; simp_all) hc
          | cons x xs => simp [String.length, hcc]
        rw [pathStrAux_length] at h1
        simp [List.foldr] at h1
        omega
    · have hel : e ≠ [] := by
        rintro rfl
        exact hcp (List.prefix_nil.mp hpre)
      rw [if_neg hcp, if_neg hel] at h
      have := pathStrAux_length_lt hpre hne
      rw [h] at this
      omega
  · intro h
    have : commonPrefix e p = e := (commonPrefix_eq_left_iff e p).mpr h
    rw [commonpathStr, this]

/-! ### Guard behavior lemmas -/

theorem safe_rmtree_not_exists (s : Fs) (path ep : PathC) (h : ¬ s.pathExists path) :
    safe_rmtree s path ep = (true, s) := by
  simp [safe_rmtree, h]

theorem safe_rmtree_refuses {s : Fs} {path ep : PathC}
    (hex : s.pathExists path) (he : "" ∉ ep)
    (hbad : pathStr path = "/" ∨ ¬ ep <+: path) :
    safe_rmtree s path ep = (false, s) := by
  unfold safe_rmtree
  rw [if_neg (by simpa using hex)]
  rcases hbad with hroot | hnp
  · simp [hroot]
  · by_cases h1 : pathStr path = "" ∨ pathStr path = "/" ∨ pathStr path = "/"
    · simp only [if_pos h1]
    · rw [if_neg h1]
      have : commonpathStr ep path ≠ pathStr ep := fun h =>
        hnp ((commonpath_check_iff ep path he).mp h)
      simp only [if_pos this]

theorem safe_rmtree_deletes {s : Fs} {path ep : PathC}
    (hex : s.pathExists path) (he : "" ∉ ep)
    (hnr : pathStr path ≠ "/" ∧ pathStr path ≠ "") (hpre : ep <+: path) :
    safe_rmtree s path ep = (true, s.rmtree path) := by
  unfold safe_rmtree
  rw [if_neg (by simpa using hex)]
  have h1 : ¬ (pathStr path = "" ∨ pathStr path = "/" ∨ pathStr path = "/") := by
    rintro (h | h | h)
    exacts [hnr.2 h, hnr.1 h, hnr.1 h]
  rw [if_neg h1]
  have h2 : commonpathStr ep path = pathStr ep := (commonpath_check_iff ep path he).mpr hpre
  simp only [h2, ne_eq, not_true_eq_false, if_false, ite_false]

/-! ### What the imageset builder leaves untouched -/

theorem mem_prefixesOf {q p : PathC} : q ∈ prefixesOf p ↔ q <+: p := by
  constructor
  · intro h
    obtain ⟨j, _, rfl⟩ := by simpa [prefixesOf] using h
    exact List.take_prefix j p
  · intro h
    have hj : q = p.take q.length := List.prefix_iff_eq_take.mp h
    have hle : q.length ≤ p.length := h.length_le
    simp only [prefixesOf, List.mem_map, List.mem_range]
    exact ⟨q.length, by omega, hj.symm⟩

theorem Fs.copy2_eq_some {s s' : Fs} {a tgt : PathC} (h : s.copy2 a tgt = some s') :
    ∃ d, s.lookup a = some (Entry.file d) ∧ a ∉ s.uncopyable ∧ s' = s.writeFile tgt d := by
  unfold Fs.copy2 at h
  cases hl : s.lookup a with
  | none => rw [hl] at h; exact absurd h (by simp)
  | some en =>
    cases en with
    | dir => rw [hl] at h; exact absurd h (by simp)
    | file d =>
      rw [hl] at h
      replace h : (if a ∈ s.uncopyable then (none : Option Fs)
          else some (s.writeFile tgt d)) = some s' := h
      by_cases hu : a ∈ s.uncopyable
      · rw [if_pos hu] at h; exact absurd h (by simp)
      · rw [if_neg hu] at h
        exact ⟨d, rfl, hu, (Option.some.injEq _ _).mp h.symm⟩

theorem scaleStep_preserve (src isd : PathC) (b e : String)
    (acc : List Json × Fs) (scale : String) (q : PathC) (hq : ¬ isd <+: q) :
    ((scaleStep src isd b e acc scale).2).lookup q = (acc.2).lookup q := by
  unfold scaleStep
  by_cases hex : (acc.2).pathExists (src ++ [variantName b e scale])
  · simp only [hex, if_pos]
    cases hc : (acc.2).copy2 (src ++ [variantName b e scale])
        (isd ++ [variantName b e scale]) with
    | none => simp
    | some st2 =>
      obtain ⟨d, _, _, rfl⟩ := Fs.copy2_eq_some hc
      simp only [Fs.lookup_writeFile]
      have : q ≠ isd ++ [variantName b e scale] := by
        rintro rfl
        exact hq (List.prefix_append _ _)
      simp [this]
  · simp [hex]

theorem scaleStep_uncopyable (src isd : PathC) (b e : String)
    (acc : List Json × Fs) (scale : String) :
    ((scaleStep src isd b e acc scale).2).uncopyable = (acc.2).uncopyable := by
  unfold scaleStep
  by_cases hex : (acc.2).pathExists (src ++ [variantName b e scale])
  · simp only [hex, if_pos]
    cases hc : (acc.2).copy2 (src ++ [variantName b e scale])
        (isd ++ [variantName b e scale]) with
    | none => simp
    | some st2 =>
      obtain ⟨d, _, _, rfl⟩ := Fs.copy2_eq_some hc
      simp [Fs.uncopyable_writeFile]
  · simp [hex]

theorem scaleFold_preserve (src isd : PathC) (b e : String) (scales : List String)
    (acc : List Json × Fs) (q : PathC) (hq : ¬ isd <+: q) :
    ((scales.foldl (scaleStep src isd b e) acc).2).lookup q = (acc.2).lookup q := by
  induction scales generalizing acc with
  | nil => rfl
  | cons sc rest ih =>
    rw [List.foldl_cons, ih]
    exact scaleStep_preserve src isd b e acc sc q hq

theorem scaleFold_uncopyable (src isd : PathC) (b e : String) (scales : List String)
    (acc : List Json × Fs) :
    ((scales.foldl (scaleStep src isd b e) acc).2).uncopyable = (acc.2).uncopyable := by
  induction scales generalizing acc with
  | nil => rfl
  | cons sc rest ih =>
    rw [List.foldl_cons, ih]
    exact scaleStep_uncopyable src isd b e acc sc

/-- `create_imageset` changes nothing at a path that is not inside the
imageset directory, provided the path is not a missing prefix of it. -/
theorem create_imageset_preserve (s : Fs) (src dst : PathC) (b e : String)
    (scales : List String) (q : PathC)
    (h1 : ¬ imagesetDir dst b <+: q)
    (h2 : (s.lookup q).isSome ∨ ¬ q <+: imagesetDir dst b) :
    ((create_imageset s src dst b e scales).2).lookup q = s.lookup q := by
  cases hm : s.makedirs (imagesetDir dst b) with
  | none => simp only [create_imageset, hm]
  | some s1 =>
    have hs1 : s1.lookup q = s.lookup q := by
      rw [Fs.lookup_makedirs hm q]
      rcases h2 with h2 | h2
      · have : ¬ (s.lookup q).isNone := by
          cases hv : s.lookup q
          · rw [hv] at h2; exact absurd h2 (by simp)
          · simp
        simp [this]
      · have : q ∉ prefixesOf (imagesetDir dst b) := fun hmem =>
          h2 (mem_prefixesOf.mp hmem)
        simp [this]
    simp only [create_imageset, hm, Fs.lookup_writeFile]
    have hne : q ≠ imagesetDir dst b ++ ["Contents.json"] := by
      rintro rfl
      exact h1 (List.prefix_append _ _)
    rw [if_neg hne, scaleFold_preserve _ _ _ _ _ _ _ h1, hs1]

theorem create_imageset_uncopyable (s : Fs) (src dst : PathC) (b e : String)
    (scales : List String) :
    ((create_imageset s src dst b e scales).2).uncopyable = s.uncopyable := by
  cases hm : s.makedirs (imagesetDir dst b) with
  | none => simp only [create_imageset, hm]
  | some s1 =>
    simp only [create_imageset, hm, Fs.uncopyable_writeFile, scaleFold_uncopyable]
    exact Fs.uncopyable_makedirs hm

/-- The filesystem component of the processing fold does not depend on the
accumulated success flag. -/
theorem processGroups_acc (src dst : PathC) (groups : List (String × String)) :
    ∀ (bb : Bool) (st : Fs),
      (groups.foldl (fun acc g =>
        let r := create_imageset acc.2 src dst g.1 g.2 scalesList
        (acc.1 && r.1, r.2)) (bb, st)).2 = (processGroups st src dst groups).2 := by
  induction groups with
  | nil => intro bb st; rfl
  | cons g rest ih =>
    intro bb st
    show (rest.foldl _
      (bb && (create_imageset st src dst g.1 g.2 scalesList).1,
       (create_imageset st src dst g.1 g.2 scalesList).2)).2 = _
    rw [ih]
    show _ = (rest.foldl _
      (true && (create_imageset st src dst g.1 g.2 scalesList).1,
       (create_imageset st src dst g.1 g.2 scalesList).2)).2
    rw [ih]

/-- Unfolding one step of the processing loop, state component. -/
theorem processGroups_cons_snd (s : Fs) (src dst : PathC) (g : String × String)
    (rest : List (String × String)) :
    (processGroups s src dst (g :: rest)).2 =
      (processGroups (create_imageset s src dst g.1 g.2 scalesList).2 src dst rest).2 := by
  show (rest.foldl _
    (true && (create_imageset s src dst g.1 g.2 scalesList).1,
     (create_imageset s src dst g.1 g.2 scalesList).2)).2 = _
  rw [processGroups_acc]

/-- The group-processing loop changes nothing at a path that is not inside
any group's imageset directory, provided the path is present or not a prefix
of any of them. -/
theorem processGroups_preserve (s : Fs) (src dst : PathC)
    (groups : List (String × String)) (q : PathC)
    (h1 : ∀ g ∈ groups, ¬ imagesetDir dst g.1 <+: q)
    (h2 : (s.lookup q).isSome ∨ ∀ g ∈ groups, ¬ q <+: imagesetDir dst g.1) :
    ((processGroups s src dst groups).2).lookup q = s.lookup q := by
  induction groups generalizing s with
  | nil => rfl
  | cons g rest ih =>
    have hstep : ((create_imageset s src dst g.1 g.2 scalesList).2).lookup q = s.lookup q :=
      create_imageset_preserve s src dst g.1 g.2 scalesList q
        (h1 g (List.mem_cons_self g rest))
        (by
          rcases h2 with h2 | h2
          · exact Or.inl h2
          · exact Or.inr (h2 g (List.mem_cons_self g rest)))
    have hrest : ∀ g' ∈ rest, ¬ imagesetDir dst g'.1 <+: q := fun g' hg' =>
      h1 g' (List.mem_cons_of_mem g hg')
    have hrest2 : (((create_imageset s src dst g.1 g.2 scalesList).2).lookup q).isSome ∨
        ∀ g' ∈ rest, ¬ q <+: imagesetDir dst g'.1 := by
      rcases h2 with h2 | h2
      · exact Or.inl (by rw [hstep]; exact h2)
      · exact Or.inr (fun g' hg' => h2 g' (List.mem_cons_of_mem g hg'))
    rw [processGroups_cons_snd, ih _ hrest hrest2, hstep]

theorem processGroups_uncopyable (s : Fs) (src dst : PathC)
    (groups : List (String × String)) :
    ((processGroups s src dst groups).2).uncopyable = s.uncopyable := by
  induction groups generalizing s with
  | nil => rfl
  | cons g rest ih =>
    rw [processGroups_cons_snd, ih _, create_imageset_uncopyable]

/-! ### Migration-engine branch lemmas -/

theorem imageset_ne_contents (b : String) : b ++ ".imageset" ≠ "Contents.json" := by
  intro h
  have hd : b.data ++ ".imageset".data = "Contents.json".data := by
    rw [← String.data_append, h]
  have hlen : b.data.length + 9 = 13 := by
    have := congrArg List.length hd
    simpa using this
  have hsplit : "Contents.json".data = "Cont".data ++ "ents.json".data := rfl
  rw [hsplit] at hd
  have hc4 : ("Cont".data : List Char).length = 4 := rfl
  have h9 : (".imageset".data : List Char) = "ents.json".data :=
    (List.append_inj hd (by rw [hc4]; omega)).2
  exact absurd h9 (by decide)

theorem Fs.isDir_pathExists {s : Fs} {p : PathC} (h : s.isDir p) : s.pathExists p := by
  unfold Fs.isDir at h
  unfold Fs.pathExists
  cases hv : s.lookup p with
  | none => rw [hv] at h; exact absurd h (by simp)
  | some en => simp

theorem Fs.isDir_lookup {s : Fs} {p : PathC} (h : s.isDir p) : s.lookup p = some Entry.dir := by
  unfold Fs.isDir at h
  cases hv : s.lookup p with
  | none => rw [hv] at h; exact absurd h (by simp)
  | some en =>
    cases en with
    | dir => rfl
    | file d => rw [hv] at h; exact absurd h (by simp)

/-- When the source validates and the guarded delete and destination
creation succeed, `migrate_assets` runs the listing/processing stage from
the prepared state. -/
theorem migrate_assets_eq_processing {s sg s2 : Fs} (root src dst : PathC)
    (hsrc : s.isDir src)
    (hg : safe_rmtree s dst (root ++ ["Sources"]) = (true, sg))
    (hm : sg.makedirs dst = some s2) :
    migrate_assets s root src dst =
      (match (s2.writeFile (dst ++ ["Contents.json"]) (.jdata rootJson)).listdir src with
       | none => (false, s2.writeFile (dst ++ ["Contents.json"]) (.jdata rootJson))
       | some names =>
         processGroups (s2.writeFile (dst ++ ["Contents.json"]) (.jdata rootJson))
           src dst (buildOrder names)) := by
  simp [migrate_assets, Fs.isDir_pathExists hsrc, hsrc, hg, hm]

/-- A failed source validation or a refused guard leaves the state unchanged
and fails the run. -/
theorem migrate_assets_aborts {s : Fs} (root src dst : PathC)
    (h : ¬ s.pathExists src ∨ ¬ s.isDir src ∨
      safe_rmtree s dst (root ++ ["Sources"]) = (false, s)) :
    migrate_assets s root src dst = (false, s) := by
  by_cases h1 : s.pathExists src
  · by_cases h2 : s.isDir src
    · rcases h with h | h | h
      · exact absurd h1 h
      · exact absurd h2 h
      · simp [migrate_assets, h1, h2, h]
    · simp [migrate_assets, h1, h2]
  · simp [migrate_assets, h1]

theorem imagesetDir_not_prefix_short {dst : PathC} {b : String} {q : PathC}
    (hlen : q.length ≤ dst.length) : ¬ imagesetDir dst b <+: q := by
  intro h
  have := h.length_le
  simp [imagesetDir] at this
  omega

theorem imagesetDir_not_prefix_contents (dst : PathC) (b : String) :
    ¬ imagesetDir dst b <+: dst ++ ["Contents.json"] := by
  intro h
  have hlen : (imagesetDir dst b).length = (dst ++ ["Contents.json"]).length := by
    simp [imagesetDir]
  have heq := h.eq_of_length hlen
  simp only [imagesetDir, List.append_cancel_left_eq, List.cons.injEq] at heq
  exact imageset_ne_contents b heq.1

/-! ### Claim theorems: the guarded delete (C1, C10) -/

/-- A filesystem used as a counterexample input: a project skeleton whose
source directory holds one image, with no destination present at `/out`. -/
def fsOutsideDest : Fs :=
  { entries := [([], .dir), (["proj"], .dir), (["proj", "Sources"], .dir),
      (["proj", "Sources", "Assets"], .dir),
      (["proj", "Sources", "Assets", "a.png"], .file (.bytes "A"))],
    uncopyable := [] }

/-- C1, counterexample: for the destination `/out`, whose resolved form is
not a descendant of the expected parent `/proj/Sources`, but which does not
exist, the guarded delete returns success (not failure), and migration
creates the destination directory there — the claim's unrestricted
quantification over destination paths fails on nonexistent ones. -/
theorem c1_guard_counterexample :
    (safe_rmtree fsOutsideDest ["out"] (["proj"] ++ ["Sources"])).1 = true ∧
    (migrate_assets fsOutsideDest ["proj"] ["proj", "Sources", "Assets"] ["out"]).2.lookup
      ["out"] = some Entry.dir := by
  constructor
  · rfl
  · rfl

/-- C1, amended: for every destination path that **exists** and whose
resolved form is the filesystem root `/` or not a descendant of (or equal
to) the expected parent `root/Sources`, the guarded delete refuses and
returns failure, and `migrate_assets` fails with the state unchanged — no
deletion and no write. -/
theorem c1_guard_refuses_bad_existing_dest (s : Fs) (root src dst : PathC)
    (hex : s.pathExists dst) (hroot : "" ∉ root)
    (hbad : pathStr dst = "/" ∨ ¬ (root ++ ["Sources"]) <+: dst) :
    safe_rmtree s dst (root ++ ["Sources"]) = (false, s) ∧
    migrate_assets s root src dst = (false, s) := by
  have he : "" ∉ root ++ ["Sources"] := by
    intro hmem
    rcases List.mem_append.mp hmem with hmem | hmem
    · exact hroot hmem
    · simp at hmem
  have hg := safe_rmtree_refuses hex he hbad
  exact ⟨hg, migrate_assets_aborts root src dst (Or.inr (Or.inr hg))⟩

/-- A filesystem with an existing destination `/out` outside the expected
parent. -/
def fsOutsideDestExisting : Fs :=
  { entries := [([], .dir), (["proj"], .dir), (["proj", "Sources"], .dir),
      (["proj", "Sources", "Assets"], .dir),
      (["proj", "Sources", "Assets", "a.png"], .file (.bytes "A")),
      (["out"], .dir), (["out", "keep.txt"], .file (.bytes "K"))],
    uncopyable := [] }

/-- Witness for the amended C1 at a concrete input: an existing destination
`/out` outside `/proj/Sources` is refused and migration changes nothing. -/
theorem c1_guard_refuses_bad_existing_dest_witness :
    safe_rmtree fsOutsideDestExisting ["out"] (["proj"] ++ ["Sources"]) =
      (false, fsOutsideDestExisting) ∧
    migrate_assets fsOutsideDestExisting ["proj"] ["proj", "Sources", "Assets"] ["out"] =
      (false, fsOutsideDestExisting) :=
  c1_guard_refuses_bad_existing_dest fsOutsideDestExisting ["proj"]
    ["proj", "Sources", "Assets"] ["out"] (by decide) (by decide)
    (Or.inr (by decide))

/-- C10: when the destination does not exist, the guarded delete returns
success with the state unchanged — performing neither the root/empty check
nor the containment check — and migration (for a valid source, with no file
blocking the destination path) creates the destination directory and its
root manifest wherever the destination is, with no containment requirement. -/
theorem c10_guard_skips_nonexistent_dest (s : Fs) (root src dst : PathC)
    (hdst : ¬ s.pathExists dst) :
    safe_rmtree s dst (root ++ ["Sources"]) = (true, s) ∧
    (s.isDir src → s.mkdirBlocked dst = false →
      ((migrate_assets s root src dst).2.lookup dst = some Entry.dir ∧
       (migrate_assets s root src dst).2.lookup (dst ++ ["Contents.json"]) =
         some (Entry.file (.jdata rootJson)))) := by
  have hguard := safe_rmtree_not_exists s dst (root ++ ["Sources"]) hdst
  refine ⟨hguard, fun hsrc hblk => ?_⟩
  cases hm : s.makedirs dst with
  | none =>
    rw [Fs.makedirs, hblk] at hm
    simp at hm
  | some s2 =>
    rw [migrate_assets_eq_processing root src dst hsrc hguard hm]
    have hnone : (s.lookup dst).isNone := by
      unfold Fs.pathExists at hdst
      cases hv : s.lookup dst
      · simp
      · rw [hv] at hdst; exact absurd (by simp) hdst
    have h2dst : s2.lookup dst = some Entry.dir := by
      rw [Fs.lookup_makedirs hm dst]
      rw [if_pos ⟨mem_prefixesOf.mpr (List.prefix_refl dst), hnone⟩]
    have hne : dst ≠ dst ++ ["Contents.json"] := by simp
    have h3dst : (s2.writeFile (dst ++ ["Contents.json"]) (.jdata rootJson)).lookup dst =
        some Entry.dir := by
      rw [Fs.lookup_writeFile, if_neg hne, h2dst]
    have h3cj : (s2.writeFile (dst ++ ["Contents.json"]) (.jdata rootJson)).lookup
        (dst ++ ["Contents.json"]) = some (Entry.file (.jdata rootJson)) := by
      rw [Fs.lookup_writeFile, if_pos rfl]
    cases hls : (s2.writeFile (dst ++ ["Contents.json"]) (.jdata rootJson)).listdir src with
    | none => exact ⟨h3dst, h3cj⟩
    | some names =>
      constructor
      · rw [processGroups_preserve _ src dst _ dst
          (fun g _ => imagesetDir_not_prefix_short (Nat.le_refl _))
          (Or.inl (by rw [h3dst]; rfl))]
        exact h3dst
      · rw [processGroups_preserve _ src dst _ (dst ++ ["Contents.json"])
          (fun g _ => imagesetDir_not_prefix_contents dst g.1)
          (Or.inl (by rw [h3cj]; rfl))]
        exact h3cj

/-- Witness for C10 at a concrete input: the nonexistent destination `/out`
lies outside the expected parent `/proj/Sources`, yet the guard reports
success and migration creates it. -/
theorem c10_guard_skips_nonexistent_dest_witness :
    safe_rmtree fsOutsideDest ["out"] (["proj"] ++ ["Sources"]) = (true, fsOutsideDest) ∧
    ((migrate_assets fsOutsideDest ["proj"] ["proj", "Sources", "Assets"] ["out"]).2.lookup
        ["out"] = some Entry.dir ∧
     (migrate_assets fsOutsideDest ["proj"] ["proj", "Sources", "Assets"]
        ["out"]).2.lookup (["out"] ++ ["Contents.json"]) =
       some (Entry.file (.jdata rootJson))) :=
  ⟨(c10_guard_skips_nonexistent_dest fsOutsideDest ["proj"] ["proj", "Sources", "Assets"]
      ["out"] (by decide)).1,
   (c10_guard_skips_nonexistent_dest fsOutsideDest ["proj"] ["proj", "Sources", "Assets"]
      ["out"] (by decide)).2 (by decide) (by decide)⟩

/-! ### Claim theorems: the path resolver (C3) -/

/-- C3: the resolver's default fallback is unreachable.  With no positional
CLI arguments and both `ASSET_SOURCE_DIR` and `ASSET_DEST_DIR` unset,
`main` yields `Path(".")` for both directories rather than the built-in
defaults: `os.environ.get(key, "")` returns `""`, `Path("")` is `Path(".")`,
and `pathlib.Path` defines neither `__bool__` nor `__len__`, so
`Path("") or default_source` evaluates to `Path(".")`, never the default. -/
theorem c3_resolver_defaults_unreachable :
    resolvePaths "/proj" [] ["migrate_assets.py"] = (⟨"."⟩, ⟨"."⟩) ∧
    (get_default_paths "/proj").1 ≠ ⟨"."⟩ ∧
    (get_default_paths "/proj").2 ≠ ⟨"."⟩ := by
  refine ⟨rfl, ?_, ?_⟩ <;> decide

/-! ### Claim theorems: deterministic processing order (C9) -/

theorem char_lt_iff_toNat (a b : Char) : a < b ↔ a.toNat < b.toNat := by
  rw [Char.lt_iff_val_lt_val]
  exact Iff.rfl

theorem charEq_of_toNat_eq {a b : Char} (h : a.toNat = b.toNat) : a = b :=
  Char.ext (UInt32.toNat.inj h)

theorem charListLt_iff : ∀ l₁ l₂ : List Char, charListLt l₁ l₂ = true ↔ l₁ < l₂ := by
  intro l₁
  induction l₁ with
  | nil =>
    intro l₂
    cases l₂ with
    | nil =>
      constructor
      · intro h; exact absurd h (by simp [charListLt])
      · intro h; cases h
    | cons b bs =>
      constructor
      · intro _; exact List.Lex.nil
      · intro _; rfl
  | cons a as1 ih =>
    intro l₂
    cases l₂ with
    | nil =>
      constructor
      · intro h; exact absurd h (by simp [charListLt])
      · intro h; cases h
    | cons b bs =>
      show (if a.toNat < b.toNat then true
        else if b.toNat < a.toNat then false else charListLt as1 bs) = true ↔ _
      by_cases h1 : a.toNat < b.toNat
      · simp only [h1, if_pos]
        constructor
        · intro _
          exact List.Lex.rel ((char_lt_iff_toNat a b).mpr h1)
        · intro _; trivial
      · by_cases h2 : b.toNat < a.toNat
        · simp only [h1, h2, if_neg, if_pos, ite_false, ite_true]
          constructor
          · intro h; exact absurd h (by simp)
          · intro h
            cases h with
            | rel hr => exact absurd ((char_lt_iff_toNat a b).mp hr) h1
            | cons _ => exact absurd h2 (by omega)
        · have hab : a = b := charEq_of_toNat_eq (by omega)
          subst hab
          simp only [h1, h2, ite_false]
          rw [ih bs]
          constructor
          · intro h
            exact List.Lex.cons h
          · intro h
            cases h with
            | rel hr => exact absurd ((char_lt_iff_toNat a a).mp hr) (by omega)
            | cons htl => exact htl

theorem strLt_iff (a b : String) : strLt a b = true ↔ a < b := by
  rw [strLt, charListLt_iff, String.lt_iff_toList_lt]
  exact Iff.rfl

theorem strLe_iff (a b : String) : strLe a b = true ↔ a ≤ b := by
  rw [strLe, Bool.or_eq_true, strLt_iff, beq_iff_eq, le_iff_lt_or_eq]

/-- The propositional order underlying `sorted(base_names)`. -/
def pairLeR (a b : String × String) : Prop := pairLe a b = true

instance : DecidableRel pairLeR := fun a b => by
  unfold pairLeR
  infer_instance

theorem pairLeR_iff (a b : String × String) :
    pairLeR a b ↔ a.1 < b.1 ∨ (a.1 = b.1 ∧ a.2 ≤ b.2) := by
  unfold pairLeR pairLe
  by_cases h : a.1 = b.1
  · rw [if_pos h, strLe_iff]
    simp [h, lt_irrefl]
  · rw [if_neg h, strLt_iff]
    simp [h]

instance : IsTotal (String × String) pairLeR where
  total a b := by
    rw [pairLeR_iff, pairLeR_iff]
    rcases lt_trichotomy a.1 b.1 with h | h | h
    · exact Or.inl (Or.inl h)
    · rcases le_total a.2 b.2 with h2 | h2
      · exact Or.inl (Or.inr ⟨h, h2⟩)
      · exact Or.inr (Or.inr ⟨h.symm, h2⟩)
    · exact Or.inr (Or.inl h)

instance : IsTrans (String × String) pairLeR where
  trans a b c hab hbc := by
    rw [pairLeR_iff] at hab hbc ⊢
    rcases hab with h1 | ⟨h1, h1b⟩ <;> rcases hbc with h2 | ⟨h2, h2b⟩
    · exact Or.inl (h1.trans h2)
    · exact Or.inl (h2 ▸ h1)
    · exact Or.inl (h1 ▸ h2)
    · exact Or.inr ⟨h1.trans h2, h1b.trans h2b⟩

instance : IsAntisymm (String × String) pairLeR where
  antisymm a b hab hba := by
    rw [pairLeR_iff] at hab hba
    rcases hab with h1 | ⟨h1, h1b⟩ <;> rcases hba with h2 | ⟨h2, h2b⟩
    · exact absurd (h1.trans h2) (lt_irrefl _)
    · exact absurd h1 (h2 ▸ lt_irrefl _)
    · exact absurd h2 (h1 ▸ lt_irrefl _)
    · exact Prod.ext h1 (le_antisymm h1b h2b)

/-- C9: the groups are processed in lexicographic order of
`(base_name, extension)` — the build order is sorted under the
Python-tuple order `pairLe` (which coincides with the lexicographic
product order), it is a permutation of the discovered group set, and it is
a deterministic function of that set: any two listings discovering the
same groups (in any order) produce the same build sequence. -/
theorem c9_processing_order_lex_deterministic :
    (∀ a b, pairLeR a b ↔ Prod.Lex (· < ·) (· ≤ ·) a b) ∧
    (∀ names, (buildOrder names).Sorted pairLeR ∧
      List.Perm (buildOrder names) (discoverGroups names)) ∧
    (∀ n1 n2, List.Perm (discoverGroups n1) (discoverGroups n2) → buildOrder n1 = buildOrder n2) := by
  refine ⟨?_, fun names => ⟨?_, ?_⟩, fun n1 n2 hperm => ?_⟩
  · intro a b
    rw [pairLeR_iff]
    constructor
    · rintro (h | ⟨h, h2⟩)
      · exact Prod.Lex.left _ _ h
      · obtain ⟨a1, a2⟩ := a
        obtain ⟨b1, b2⟩ := b
        cases h
        exact Prod.Lex.right _ h2
    · intro h
      cases h with
      | left _ _ h => exact Or.inl h
      | right _ h => exact Or.inr ⟨rfl, h⟩
  · exact List.sorted_insertionSort pairLeR (discoverGroups names)
  · exact List.perm_insertionSort pairLeR (discoverGroups names)
  · exact List.eq_of_perm_of_sorted
      (((List.perm_insertionSort pairLeR (discoverGroups n1)).trans hperm).trans
        (List.perm_insertionSort pairLeR (discoverGroups n2)).symm)
      (List.sorted_insertionSort pairLeR (discoverGroups n1))
      (List.sorted_insertionSort pairLeR (discoverGroups n2))

/-- Witness for C9 at concrete inputs: two listing orders discovering the
same groups yield the identical build sequence. -/
theorem c9_processing_order_lex_deterministic_witness :
    (pairLeR ("a", ".jpg") ("a", ".png") ↔
      Prod.Lex (· < ·) (· ≤ ·) ("a", ".jpg") ("a", ".png")) ∧
    ((buildOrder ["b.png", "a.jpg", "a.png"]).Sorted pairLeR ∧
      List.Perm (buildOrder ["b.png", "a.jpg", "a.png"])
        (discoverGroups ["b.png", "a.jpg", "a.png"])) ∧
    buildOrder ["b.png", "a.jpg", "a.png"] = buildOrder ["a.png", "a.jpg", "b.png"] :=
  ⟨c9_processing_order_lex_deterministic.1 ("a", ".jpg") ("a", ".png"),
   c9_processing_order_lex_deterministic.2.1 ["b.png", "a.jpg", "a.png"],
   c9_processing_order_lex_deterministic.2.2 ["b.png", "a.jpg", "a.png"]
     ["a.png", "a.jpg", "b.png"] (by decide)⟩

/-! ### Characterizing one imageset build -/

/-- The content of the regular file at `p`, when there is one. -/
def sourceFileData (s : Fs) (p : PathC) : Option FData :=
  match s.lookup p with
  | some (.file d) => some d
  | _ => none

/-- Whether the copy of variant `v` from the source succeeds: the source
entry is a regular file and it is not uncopyable. -/
def variantCopied (s : Fs) (source_dir : PathC) (v : String) : Bool :=
  (sourceFileData s (source_dir ++ [v])).isSome &&
    !(decide ((source_dir ++ [v]) ∈ s.uncopyable))

/-- The manifest entry the builder writes for one scale. -/
def expectedEntry (s : Fs) (source_dir : PathC) (b e scale : String) : Json :=
  imageEntry scale
    (if variantCopied s source_dir (variantName b e scale)
     then some (variantName b e scale) else none)

/-- The three manifest entries, in the fixed scale order. -/
def expectedImages (s : Fs) (source_dir : PathC) (b e : String) : List Json :=
  [expectedEntry s source_dir b e "1x",
   expectedEntry s source_dir b e "2x",
   expectedEntry s source_dir b e "3x"]

theorem scaleStep_char {s : Fs} (src isd : PathC) (b e scale : String)
    (acc : List Json × Fs)
    (hpres : acc.2.lookup (src ++ [variantName b e scale]) =
      s.lookup (src ++ [variantName b e scale]))
    (hunc : acc.2.uncopyable = s.uncopyable) :
    (scaleStep src isd b e acc scale).1 =
      acc.1 ++ [expectedEntry s src b e scale] ∧
    (∀ q, (scaleStep src isd b e acc scale).2.lookup q =
      if q = isd ++ [variantName b e scale] ∧
          variantCopied s src (variantName b e scale) = true
      then (sourceFileData s (src ++ [variantName b e scale])).map Entry.file
      else acc.2.lookup q) ∧
    (scaleStep src isd b e acc scale).2.uncopyable = s.uncopyable := by
  unfold scaleStep
  cases hv : s.lookup (src ++ [variantName b e scale]) with
  | none =>
    have hex : acc.2.pathExists (src ++ [variantName b e scale]) = false := by
      unfold Fs.pathExists
      rw [hpres, hv]
      rfl
    have hcop : variantCopied s src (variantName b e scale) = false := by
      unfold variantCopied sourceFileData
      rw [hv]
      rfl
    refine ⟨by simp [hex, hcop, expectedEntry], fun q => ?_, by simp [hex, hunc]⟩
    simp [hex, hcop]
  | some en =>
    cases en with
    | dir =>
      have hex : acc.2.pathExists (src ++ [variantName b e scale]) = true := by
        unfold Fs.pathExists
        rw [hpres, hv]
        rfl
      have hcop : variantCopied s src (variantName b e scale) = false := by
        unfold variantCopied sourceFileData
        rw [hv]
        rfl
      have hc2 : acc.2.copy2 (src ++ [variantName b e scale])
          (isd ++ [variantName b e scale]) = none := by
        unfold Fs.copy2
        rw [hpres, hv]
      refine ⟨by simp [hex, hc2, hcop, expectedEntry], fun q => ?_, by simp [hex, hc2, hunc]⟩
      simp [hex, hc2, hcop]
    | file d =>
      have hex : acc.2.pathExists (src ++ [variantName b e scale]) = true := by
        unfold Fs.pathExists
        rw [hpres, hv]
        rfl
      by_cases hu : (src ++ [variantName b e scale]) ∈ s.uncopyable
      · have hcop : variantCopied s src (variantName b e scale) = false := by
          unfold variantCopied sourceFileData
          rw [hv]
          simp [hu]
        have hc2 : acc.2.copy2 (src ++ [variantName b e scale])
            (isd ++ [variantName b e scale]) = none := by
          unfold Fs.copy2
          rw [hpres, hv]
          show (if src ++ [variantName b e scale] ∈ acc.2.uncopyable then none
            else some (acc.2.writeFile (isd ++ [variantName b e scale]) d)) = none
          rw [hunc, if_pos hu]
        refine ⟨by simp [hex, hc2, hcop, expectedEntry], fun q => ?_, by simp [hex, hc2, hunc]⟩
        simp [hex, hc2, hcop]
      · have hcop : variantCopied s src (variantName b e scale) = true := by
          unfold variantCopied sourceFileData
          rw [hv]
          simp [hu]
        have hc2 : acc.2.copy2 (src ++ [variantName b e scale])
            (isd ++ [variantName b e scale]) =
            some (acc.2.writeFile (isd ++ [variantName b e scale]) d) := by
          unfold Fs.copy2
          rw [hpres, hv]
          show (if src ++ [variantName b e scale] ∈ acc.2.uncopyable then none
            else some (acc.2.writeFile (isd ++ [variantName b e scale]) d)) =
            some (acc.2.writeFile (isd ++ [variantName b e scale]) d)
          rw [hunc, if_neg hu]
        have hdata : sourceFileData s (src ++ [variantName b e scale]) = some d := by
          unfold sourceFileData
          rw [hv]
        refine ⟨by simp [hex, hc2, hcop, expectedEntry], fun q => ?_,
          by simp [hex, hc2, Fs.uncopyable_writeFile, hunc]⟩
        simp only [hex, if_pos, hc2, hcop, hdata, Option.map_some]
        rw [Fs.lookup_writeFile]
        by_cases hq : q = isd ++ [variantName b e scale]
        · simp [hq]
        · simp [hq]

theorem variantName_one_ne_two (b e : String) :
    variantName b e "1x" ≠ variantName b e "2x" := by
  have e1 : variantName b e "1x" = b ++ e := rfl
  have e2 : variantName b e "2x" = b ++ "@" ++ "2" ++ "x" ++ e := rfl
  intro h
  rw [e1, e2] at h
  have hlen := congrArg String.length h
  simp only [String.length_append] at hlen
  have h1 : ("@" : String).length = 1 := rfl
  have h2 : ("2" : String).length = 1 := rfl
  have h3 : ("x" : String).length = 1 := rfl
  omega

theorem variantName_one_ne_three (b e : String) :
    variantName b e "1x" ≠ variantName b e "3x" := by
  have e1 : variantName b e "1x" = b ++ e := rfl
  have e2 : variantName b e "3x" = b ++ "@" ++ "3" ++ "x" ++ e := rfl
  intro h
  rw [e1, e2] at h
  have hlen := congrArg String.length h
  simp only [String.length_append] at hlen
  have h1 : ("@" : String).length = 1 := rfl
  have h2 : ("3" : String).length = 1 := rfl
  have h3 : ("x" : String).length = 1 := rfl
  omega

theorem variantName_two_ne_three (b e : String) :
    variantName b e "2x" ≠ variantName b e "3x" := by
  have e2 : variantName b e "2x" = b ++ "@" ++ "2" ++ "x" ++ e := rfl
  have e3 : variantName b e "3x" = b ++ "@" ++ "3" ++ "x" ++ e := rfl
  intro h
  rw [e2, e3] at h
  have hd := congrArg String.data h
  have da : ("@" : String).data = ['@'] := rfl
  have d2 : ("2" : String).data = ['2'] := rfl
  have d3 : ("3" : String).data = ['3'] := rfl
  have dx : ("x" : String).data = ['x'] := rfl
  simp only [String.data_append, da, d2, d3, dx, List.append_assoc,
    List.cons_append, List.nil_append, List.append_cancel_left_eq,
    List.cons.injEq] at hd
  simp at hd

theorem src_variant_ne_target {src isd : PathC} (hsne : ¬ src <+: isd)
    (w v : String) : src ++ [w] ≠ isd ++ [v] := by
  intro h
  have hl : ([w] : List String).length = ([v] : List String).length := rfl
  obtain ⟨h1, _⟩ := List.append_inj' h hl
  exact hsne (h1 ▸ List.prefix_refl src)

theorem src_variant_pres {s s1 : Fs} {isd : PathC} (src : PathC)
    (hm : s.makedirs isd = some s1) (hsne : ¬ src <+: isd) (w : String) :
    s1.lookup (src ++ [w]) = s.lookup (src ++ [w]) := by
  rw [Fs.lookup_makedirs hm]
  have : src ++ [w] ∉ prefixesOf isd := by
    intro hmem
    exact hsne ((List.prefix_append src [w]).trans (mem_prefixesOf.mp hmem))
  simp [this]

/-- Full characterization of one imageset build from a state `s`: when the
imageset directory can be created and the source directory is not a prefix
of it, the build succeeds, the manifest holds the three expected entries in
scale order, each successfully copied variant file appears with the source's
content, and everything else is as the post-`makedirs` state `s1`. -/
theorem create_imageset_run {s s1 : Fs} (src dst : PathC) (b e : String)
    (hm : s.makedirs (imagesetDir dst b) = some s1)
    (hsne : ¬ src <+: imagesetDir dst b) :
    (create_imageset s src dst b e scalesList).1 = true ∧
    (∀ q, (create_imageset s src dst b e scalesList).2.lookup q =
      if q = imagesetDir dst b ++ ["Contents.json"]
      then some (.file (.jdata (contentsJson (expectedImages s src b e))))
      else if q = imagesetDir dst b ++ [variantName b e "3x"] ∧
          variantCopied s src (variantName b e "3x") = true
      then (sourceFileData s (src ++ [variantName b e "3x"])).map Entry.file
      else if q = imagesetDir dst b ++ [variantName b e "2x"] ∧
          variantCopied s src (variantName b e "2x") = true
      then (sourceFileData s (src ++ [variantName b e "2x"])).map Entry.file
      else if q = imagesetDir dst b ++ [variantName b e "1x"] ∧
          variantCopied s src (variantName b e "1x") = true
      then (sourceFileData s (src ++ [variantName b e "1x"])).map Entry.file
      else s1.lookup q) := by
  have hunc1 : s1.uncopyable = s.uncopyable := Fs.uncopyable_makedirs hm
  set isd := imagesetDir dst b with hisd
  obtain ⟨hf1, hl1, hu1⟩ := scaleStep_char (s := s) src isd b e "1x" ([], s1)
    (src_variant_pres src hm hsne _) hunc1
  obtain ⟨hf2, hl2, hu2⟩ := scaleStep_char (s := s) src isd b e "2x"
    (scaleStep src isd b e ([], s1) "1x")
    (by
      rw [hl1]
      have : src ++ [variantName b e "2x"] ≠ isd ++ [variantName b e "1x"] :=
        src_variant_ne_target hsne _ _
      simp only [this, false_and, if_neg, ite_false]
      exact src_variant_pres src hm hsne _) hu1
  obtain ⟨hf3, hl3, hu3⟩ := scaleStep_char (s := s) src isd b e "3x"
    (scaleStep src isd b e (scaleStep src isd b e ([], s1) "1x") "2x")
    (by
      rw [hl2, hl1]
      have h2 : src ++ [variantName b e "3x"] ≠ isd ++ [variantName b e "2x"] :=
        src_variant_ne_target hsne _ _
      have h1 : src ++ [variantName b e "3x"] ≠ isd ++ [variantName b e "1x"] :=
        src_variant_ne_target hsne _ _
      simp only [h1, h2, false_and, if_neg, ite_false]
      exact src_variant_pres src hm hsne _) hu2
  have hfold : scalesList.foldl (scaleStep src isd b e) ([], s1) =
      scaleStep src isd b e (scaleStep src isd b e
        (scaleStep src isd b e ([], s1) "1x") "2x") "3x" := rfl
  have himg : (scalesList.foldl (scaleStep src isd b e) ([], s1)).1 =
      expectedImages s src b e := by
    rw [hfold, hf3, hf2, hf1]
    rfl
  constructor
  · simp only [create_imageset, ← hisd, hm]
  · intro q
    simp only [create_imageset, ← hisd, hm]
    rw [Fs.lookup_writeFile, himg]
    by_cases hqCJ : q = isd ++ ["Contents.json"]
    · simp [hqCJ]
    · rw [if_neg hqCJ, if_neg hqCJ, hfold, hl3]
      by_cases hq3 : q = isd ++ [variantName b e "3x"] ∧
          variantCopied s src (variantName b e "3x") = true
      · rw [if_pos hq3, if_pos hq3]
      · rw [if_neg hq3, if_neg hq3, hl2]
        by_cases hq2 : q = isd ++ [variantName b e "2x"] ∧
            variantCopied s src (variantName b e "2x") = true
        · rw [if_pos hq2, if_pos hq2]
        · rw [if_neg hq2, if_neg hq2, hl1]

theorem makedirs_self_dir {s s1 : Fs} {p : PathC} (hm : s.makedirs p = some s1) :
    s1.lookup p = some Entry.dir := by
  have hnb : s.mkdirBlocked p = false := by
    by_cases hb : s.mkdirBlocked p
    · rw [Fs.makedirs, if_pos hb] at hm
      exact absurd hm (by simp)
    · simpa using hb
  rw [Fs.lookup_makedirs hm p]
  by_cases hn : (s.lookup p).isNone
  · rw [if_pos ⟨mem_prefixesOf.mpr (List.prefix_refl p), hn⟩]
  · rw [if_neg (fun h => hn h.2)]
    cases hv : s.lookup p with
    | none => rw [hv] at hn; exact absurd (by simp) hn
    | some en =>
      cases en with
      | dir => rfl
      | file d =>
        exfalso
        have : s.mkdirBlocked p = true := by
          unfold Fs.mkdirBlocked
          rw [List.any_eq_true]
          refine ⟨p, mem_prefixesOf.mpr (List.prefix_refl p), ?_⟩
          rw [hv]
        rw [this] at hnb
        exact absurd hnb (by simp)

theorem create_imageset_fst (t : Fs) (src dst : PathC) (b e : String)
    (scales : List String) :
    (create_imageset t src dst b e scales).1 = (t.makedirs (imagesetDir dst b)).isSome := by
  cases hm : t.makedirs (imagesetDir dst b) with
  | none => simp only [create_imageset, hm]; rfl
  | some s1 => simp only [create_imageset, hm]; rfl

/-! ### Claim theorems: manifest structure (C7) -/

/-- C7: for every successfully built group, the written `Contents.json` is
the object `{images: [e1x, e2x, e3x], info: {author: "xcode", version: 1}}`
with the entries in the fixed scale order; each entry carries
`idiom: "universal"` and its scale, and carries a `filename` exactly when
the corresponding source entry is a regular file whose copy succeeds. -/
theorem c7_manifest_structure (s s1 : Fs) (src dst : PathC) (b e : String)
    (hm : s.makedirs (imagesetDir dst b) = some s1)
    (hsne : ¬ src <+: imagesetDir dst b) :
    (create_imageset s src dst b e scalesList).1 = true ∧
    (create_imageset s src dst b e scalesList).2.lookup
      (imagesetDir dst b ++ ["Contents.json"]) =
      some (.file (.jdata (contentsJson (expectedImages s src b e)))) ∧
    contentsJson (expectedImages s src b e) =
      Json.jobj [("images", .jarr
          [imageEntry "1x" (if variantCopied s src (variantName b e "1x")
              then some (variantName b e "1x") else none),
           imageEntry "2x" (if variantCopied s src (variantName b e "2x")
              then some (variantName b e "2x") else none),
           imageEntry "3x" (if variantCopied s src (variantName b e "3x")
              then some (variantName b e "3x") else none)]),
        ("info", .jobj [("author", .jstr "xcode"), ("version", .jnum 1)])] ∧
    (∀ scale : String, variantCopied s src (variantName b e scale) = true ↔
      (∃ d, s.lookup (src ++ [variantName b e scale]) = some (.file d)) ∧
      (src ++ [variantName b e scale]) ∉ s.uncopyable) := by
  obtain ⟨hfst, hlook⟩ := create_imageset_run src dst b e hm hsne
  refine ⟨hfst, ?_, rfl, fun scale => ?_⟩
  · rw [hlook, if_pos rfl]
  · unfold variantCopied sourceFileData
    cases hv : s.lookup (src ++ [variantName b e scale]) with
    | none => simp [hv]
    | some en =>
      cases en with
      | dir => simp
      | file d =>
        by_cases hu : (src ++ [variantName b e scale]) ∈ s.uncopyable <;>
          simp [hu, hv]

/-- A source tree with a single `y.jpg` and no scale variants. -/
def fsSingleJpg : Fs :=
  { entries := [([], .dir), (["proj"], .dir), (["proj", "Sources"], .dir),
      (["proj", "Sources", "Assets"], .dir),
      (["proj", "Sources", "Assets", "y.jpg"], .file (.bytes "Y"))],
    uncopyable := [] }

/-- The state after creating `y.imageset` in `fsSingleJpg`. -/
def fsSingleJpg1 : Fs :=
  (fsSingleJpg.makedirs
    (imagesetDir ["proj", "Sources", "Assets.xcassets"] "y")).getD fsSingleJpg

/-- Witness for C7 at the spec's example: `y.jpg` with no `@2x`/`@3x`
siblings yields one entry with a filename and two without. -/
theorem c7_manifest_structure_witness :
    (create_imageset fsSingleJpg ["proj", "Sources", "Assets"]
      ["proj", "Sources", "Assets.xcassets"] "y" ".jpg" scalesList).1 = true ∧
    (create_imageset fsSingleJpg ["proj", "Sources", "Assets"]
      ["proj", "Sources", "Assets.xcassets"] "y" ".jpg" scalesList).2.lookup
      (imagesetDir ["proj", "Sources", "Assets.xcassets"] "y" ++ ["Contents.json"]) =
      some (.file (.jdata (contentsJson
        [imageEntry "1x" (some "y.jpg"), imageEntry "2x" none, imageEntry "3x" none]))) := by
  obtain ⟨h1, h2, _, _⟩ := c7_manifest_structure fsSingleJpg fsSingleJpg1
    ["proj", "Sources", "Assets"] ["proj", "Sources", "Assets.xcassets"] "y" ".jpg"
    (by rfl) (by decide)
  exact ⟨h1, by rw [h2]; rfl⟩

/-! ### Claim theorems: copy failure is degraded, not failed (C2) -/

/-- A source tree where `a.png` cannot be copied (permissions) while
`b.png` can. -/
def fsUncopyable : Fs :=
  { entries := [([], .dir), (["proj"], .dir), (["proj", "Sources"], .dir),
      (["proj", "Sources", "Assets"], .dir),
      (["proj", "Sources", "Assets", "a.png"], .file (.bytes "A")),
      (["proj", "Sources", "Assets", "b.png"], .file (.bytes "B"))],
    uncopyable := [["proj", "Sources", "Assets", "a.png"]] }

/-- C2, counterexample: with `a.png` present but uncopyable, the run's exit
code is `0`, not the claimed non-zero `1` — a copy failure leaves
`create_imageset` returning `True`, so `migrate_assets` still reports
success; the manifest is written with the failing entry lacking a filename
and the other group is unaffected. -/
theorem c2_copy_failure_exit_counterexample :
    exitCode (migrate_assets fsUncopyable ["proj"] ["proj", "Sources", "Assets"]
      ["proj", "Sources", "Assets.xcassets"]).1 = 0 ∧
    (migrate_assets fsUncopyable ["proj"] ["proj", "Sources", "Assets"]
      ["proj", "Sources", "Assets.xcassets"]).2.lookup
      ["proj", "Sources", "Assets.xcassets", "a.imageset", "Contents.json"] =
      some (.file (.jdata (contentsJson
        [imageEntry "1x" none, imageEntry "2x" none, imageEntry "3x" none]))) ∧
    (migrate_assets fsUncopyable ["proj"] ["proj", "Sources", "Assets"]
      ["proj", "Sources", "Assets.xcassets"]).2.lookup
      ["proj", "Sources", "Assets.xcassets", "a.imageset", "a.png"] = none ∧
    (migrate_assets fsUncopyable ["proj"] ["proj", "Sources", "Assets"]
      ["proj", "Sources", "Assets.xcassets"]).2.lookup
      ["proj", "Sources", "Assets.xcassets", "b.imageset", "b.png"] =
      some (.file (.bytes "B")) := by
  refine ⟨?_, ?_, ?_, ?_⟩ <;> rfl

/-- C2, amended: when a variant file exists in the source but its copy
fails, the group's manifest is still written with that variant's entry
lacking a filename, paths outside the group's imageset directory are
unaffected, and the builder's result — hence the run's exit code — is
independent of copy outcomes: it still reports success, so the process exit
code is `0`, not non-zero. -/
theorem c2_copy_failure_degraded_success (s s1 : Fs) (src dst : PathC)
    (b e scale : String)
    (hm : s.makedirs (imagesetDir dst b) = some s1)
    (hsne : ¬ src <+: imagesetDir dst b)
    (hfile : ∃ d, s.lookup (src ++ [variantName b e scale]) = some (.file d))
    (hunc : (src ++ [variantName b e scale]) ∈ s.uncopyable) :
    (create_imageset s src dst b e scalesList).1 = true ∧
    expectedEntry s src b e scale = imageEntry scale none ∧
    (create_imageset s src dst b e scalesList).2.lookup
      (imagesetDir dst b ++ ["Contents.json"]) =
      some (.file (.jdata (contentsJson (expectedImages s src b e)))) ∧
    (∀ q, ¬ imagesetDir dst b <+: q → ((s.lookup q).isSome ∨ ¬ q <+: imagesetDir dst b) →
      (create_imageset s src dst b e scalesList).2.lookup q = s.lookup q) ∧
    (∀ t : Fs, (create_imageset t src dst b e scalesList).1 =
      (t.makedirs (imagesetDir dst b)).isSome) := by
  obtain ⟨hfst, hlook⟩ := create_imageset_run src dst b e hm hsne
  have hcop : variantCopied s src (variantName b e scale) = false := by
    unfold variantCopied
    simp [hunc]
  refine ⟨hfst, ?_, ?_, ?_, fun t => create_imageset_fst t src dst b e scalesList⟩
  · unfold expectedEntry
    rw [hcop]
    rfl
  · rw [hlook, if_pos rfl]
  · intro q h1 h2
    exact create_imageset_preserve s src dst b e scalesList q h1 h2

/-- The state after creating `a.imageset` in `fsUncopyable`. -/
def fsUncopyable1 : Fs :=
  (fsUncopyable.makedirs
    (imagesetDir ["proj", "Sources", "Assets.xcassets"] "a")).getD fsUncopyable

/-- Witness for the amended C2 at a concrete input. -/
theorem c2_copy_failure_degraded_success_witness :
    (create_imageset fsUncopyable ["proj", "Sources", "Assets"]
      ["proj", "Sources", "Assets.xcassets"] "a" ".png" scalesList).1 = true ∧
    expectedEntry fsUncopyable ["proj", "Sources", "Assets"] "a" ".png" "1x" =
      imageEntry "1x" none ∧
    (create_imageset fsUncopyable ["proj", "Sources", "Assets"]
      ["proj", "Sources", "Assets.xcassets"] "a" ".png" scalesList).2.lookup
      (imagesetDir ["proj", "Sources", "Assets.xcassets"] "a" ++ ["Contents.json"]) =
      some (.file (.jdata (contentsJson (expectedImages fsUncopyable
        ["proj", "Sources", "Assets"] "a" ".png")))) := by
  obtain ⟨h1, h2, h3, _, _⟩ := c2_copy_failure_degraded_success fsUncopyable fsUncopyable1
    ["proj", "Sources", "Assets"] ["proj", "Sources", "Assets.xcassets"] "a" ".png" "1x"
    (by rfl) (by decide) ⟨.bytes "A", by rfl⟩ (by decide)
  exact ⟨h1, h2, h3⟩

/-! ### Claim theorems: one output directory per group (C5) -/

/-- A source tree holding `a.png` and `a.jpg` — two distinct asset groups
sharing the base name `a`. -/
def fsTwoExts : Fs :=
  { entries := [([], .dir), (["proj"], .dir), (["proj", "Sources"], .dir),
      (["proj", "Sources", "Assets"], .dir),
      (["proj", "Sources", "Assets", "a.png"], .file (.bytes "P")),
      (["proj", "Sources", "Assets", "a.jpg"], .file (.bytes "J"))],
    uncopyable := [] }

/-- C5, counterexample: the two distinct groups `("a", ".jpg")` and
`("a", ".png")` are both discovered, but both build into the single
directory `a.imageset`: it ends up holding both copied files, and its
manifest is the later (`.png`) group's, overwriting the `.jpg` group's —
distinct groups do share and overwrite one output directory. -/
theorem c5_shared_imageset_counterexample :
    ("a", ".jpg") ∈ discoverGroups ["a.png", "a.jpg"] ∧
    ("a", ".png") ∈ discoverGroups ["a.png", "a.jpg"] ∧
    (("a", ".jpg") : String × String) ≠ ("a", ".png") ∧
    (fsTwoExts.listdir ["proj", "Sources", "Assets"]).getD [] = ["a.png", "a.jpg"] ∧
    (migrate_assets fsTwoExts ["proj"] ["proj", "Sources", "Assets"]
      ["proj", "Sources", "Assets.xcassets"]).2.lookup
      ["proj", "Sources", "Assets.xcassets", "a.imageset", "a.jpg"] =
      some (.file (.bytes "J")) ∧
    (migrate_assets fsTwoExts ["proj"] ["proj", "Sources", "Assets"]
      ["proj", "Sources", "Assets.xcassets"]).2.lookup
      ["proj", "Sources", "Assets.xcassets", "a.imageset", "a.png"] =
      some (.file (.bytes "P")) ∧
    (migrate_assets fsTwoExts ["proj"] ["proj", "Sources", "Assets"]
      ["proj", "Sources", "Assets.xcassets"]).2.lookup
      ["proj", "Sources", "Assets.xcassets", "a.imageset", "Contents.json"] =
      some (.file (.jdata (contentsJson
        [imageEntry "1x" (some "a.png"), imageEntry "2x" none, imageEntry "3x" none]))) := by
  refine ⟨by decide, by decide, by decide, rfl, ?_, ?_, ?_⟩ <;> rfl

/-- C5, amended: the imageset directory depends only on the base name —
groups with equal base names share it — and for a base whose imageset
directory starts fresh, the build produces the directory containing exactly
the manifest and the successfully copied variant files (zero to three), all
created even when every copy fails. -/
theorem c5_imageset_invariant (s s1 : Fs) (src dst : PathC) (b e : String)
    (hm : s.makedirs (imagesetDir dst b) = some s1)
    (hsne : ¬ src <+: imagesetDir dst b)
    (hfresh : ∀ q, imagesetDir dst b <+: q → q ≠ imagesetDir dst b → s.lookup q = none) :
    (create_imageset s src dst b e scalesList).1 = true ∧
    (create_imageset s src dst b e scalesList).2.lookup (imagesetDir dst b) =
      some Entry.dir ∧
    (∀ q, imagesetDir dst b <+: q → q ≠ imagesetDir dst b →
      (create_imageset s src dst b e scalesList).2.lookup q =
        if q = imagesetDir dst b ++ ["Contents.json"]
        then some (.file (.jdata (contentsJson (expectedImages s src b e))))
        else if q = imagesetDir dst b ++ [variantName b e "3x"] ∧
            variantCopied s src (variantName b e "3x") = true
        then (sourceFileData s (src ++ [variantName b e "3x"])).map Entry.file
        else if q = imagesetDir dst b ++ [variantName b e "2x"] ∧
            variantCopied s src (variantName b e "2x") = true
        then (sourceFileData s (src ++ [variantName b e "2x"])).map Entry.file
        else if q = imagesetDir dst b ++ [variantName b e "1x"] ∧
            variantCopied s src (variantName b e "1x") = true
        then (sourceFileData s (src ++ [variantName b e "1x"])).map Entry.file
        else none) ∧
    (∀ b1 b2 : String, imagesetDir dst b1 = imagesetDir dst b2 ↔ b1 = b2) := by
  obtain ⟨hfst, hlook⟩ := create_imageset_run src dst b e hm hsne
  refine ⟨hfst, ?_, fun q hpre hne => ?_, fun b1 b2 => ?_⟩
  · rw [hlook]
    have hd : ∀ x : String, imagesetDir dst b ≠ imagesetDir dst b ++ [x] := by
      intro x h
      have := congrArg List.length h
      simp at this
    rw [if_neg (hd "Contents.json"), if_neg (fun h => hd _ h.1),
      if_neg (fun h => hd _ h.1), if_neg (fun h => hd _ h.1)]
    exact makedirs_self_dir hm
  · rw [hlook]
    have hs1 : s1.lookup q = none := by
      rw [Fs.lookup_makedirs hm q]
      have hq1 : ¬ (q ∈ prefixesOf (imagesetDir dst b) ∧ (s.lookup q).isNone) := by
        rintro ⟨hmem, _⟩
        exact hne ((mem_prefixesOf.mp hmem).eq_of_length
          (Nat.le_antisymm (mem_prefixesOf.mp hmem).length_le hpre.length_le))
      rw [if_neg hq1]
      exact hfresh q hpre hne
    rw [hs1]
  · constructor
    · intro h
      have h2 : b1 ++ ".imageset" = b2 ++ ".imageset" := by
        have := List.append_cancel_left (show dst ++ [b1 ++ ".imageset"] =
          dst ++ [b2 ++ ".imageset"] from h)
        simpa using this
      have hd := congrArg String.data h2
      rw [String.data_append, String.data_append] at hd
      exact String.ext (List.append_inj' hd rfl).1
    · intro h
      rw [h]

/-- Witness for the amended C5 at a concrete input (the `y.jpg` source):
one directory, one manifest, one copied file. -/
theorem c5_imageset_invariant_witness :
    (create_imageset fsSingleJpg ["proj", "Sources", "Assets"]
      ["proj", "Sources", "Assets.xcassets"] "y" ".jpg" scalesList).1 = true ∧
    (create_imageset fsSingleJpg ["proj", "Sources", "Assets"]
      ["proj", "Sources", "Assets.xcassets"] "y" ".jpg" scalesList).2.lookup
      (imagesetDir ["proj", "Sources", "Assets.xcassets"] "y") = some Entry.dir ∧
    (imagesetDir ["proj", "Sources", "Assets.xcassets"] "y" =
      imagesetDir ["proj", "Sources", "Assets.xcassets"] "z" ↔ ("y" : String) = "z") := by
  obtain ⟨h1, h2, _, h4⟩ := c5_imageset_invariant fsSingleJpg fsSingleJpg1
    ["proj", "Sources", "Assets"] ["proj", "Sources", "Assets.xcassets"] "y" ".jpg"
    (by rfl) (by decide)
    (by
      intro q hpre hne
      obtain ⟨r, rfl⟩ := hpre
      have hkey : ∀ k : PathC,
          ¬ imagesetDir ["proj", "Sources", "Assets.xcassets"] "y" <+: k →
          k ≠ imagesetDir ["proj", "Sources", "Assets.xcassets"] "y" ++ r := by
        intro k hk he
        rw [he] at hk
        exact hk (List.prefix_append _ r)
      show lookupE _ _ = none
      simp only [fsSingleJpg, lookupE]
      rw [if_neg (hkey [] (by decide)), if_neg (hkey ["proj"] (by decide)),
        if_neg (hkey ["proj", "Sources"] (by decide)),
        if_neg (hkey ["proj", "Sources", "Assets"] (by decide)),
        if_neg (hkey ["proj", "Sources", "Assets", "y.jpg"] (by decide))])
  exact ⟨h1, h2, h4 "y" "z"⟩

/-! ### Python filename algebra for symbolic base names -/

theorem strMk_data (x : String) : (⟨x.data⟩ : String) = x := by
  cases x
  rfl

theorem strMk_append (x : String) (l : List Char) :
    (⟨x.data ++ l⟩ : String) = x ++ (⟨l⟩ : String) := by
  cases x
  rfl

theorem strAppend_left_cancel {x a b : String} (h : x ++ a = x ++ b) : a = b := by
  have hd := congrArg String.data h
  rw [String.data_append, String.data_append] at hd
  exact String.ext (List.append_cancel_left hd)

theorem str_ne_empty_iff (x : String) : x ≠ "" ↔ x.data ≠ [] := by
  constructor
  · intro h hd
    exact h (String.ext hd)
  · intro h he
    rw [he] at h
    exact h rfl

theorem rfindDot_append (x : String) (t : List Char) (k : Nat)
    (hk : t.reverse.findIdx? (fun c => c = '.') = some k) (hkl : k < t.length) :
    rfindDot (x.data ++ t) = some (x.data.length + (t.length - 1 - k)) := by
  unfold rfindDot
  rw [List.reverse_append, List.findIdx?_append, hk]
  show some ((x.data ++ t).length - 1 - k) = _
  rw [List.length_append]
  congr 1
  omega

theorem pyParts_append (x s : String) (k : Nat) (hx : x ≠ "")
    (hk : s.data.reverse.findIdx? (fun c => c = '.') = some k)
    (h1 : 1 ≤ k) (h2 : k < s.data.length) :
    pySuffix (x ++ s) = ⟨s.data.drop (s.data.length - 1 - k)⟩ ∧
    pyStem (x ++ s) = x ++ (⟨s.data.take (s.data.length - 1 - k)⟩ : String) := by
  have hxl : 0 < x.data.length := by
    have := (str_ne_empty_iff x).mp hx
    cases hv : x.data
    · exact absurd hv this
    · simp [hv]
  have hdata : (x ++ s).data = x.data ++ s.data := String.data_append x s
  have hfind := rfindDot_append x s.data k hk h2
  have hcond : 0 < x.data.length + (s.data.length - 1 - k) ∧
      x.data.length + (s.data.length - 1 - k) < (x.data ++ s.data).length - 1 := by
    rw [List.length_append]
    omega
  constructor
  · unfold pySuffix
    rw [hdata, hfind]
    show (if 0 < x.data.length + (s.data.length - 1 - k) ∧
        x.data.length + (s.data.length - 1 - k) < (x.data ++ s.data).length - 1
      then String.mk ((x.data ++ s.data).drop
        (x.data.length + (s.data.length - 1 - k)))
      else "") = String.mk (s.data.drop (s.data.length - 1 - k))
    rw [if_pos hcond]
    show String.mk ((x.data ++ s.data).drop
      (x.data.length + (s.data.length - 1 - k))) = _
    congr 1
    rw [List.drop_append]
  · unfold pyStem
    rw [hdata, hfind]
    show (if 0 < x.data.length + (s.data.length - 1 - k) ∧
        x.data.length + (s.data.length - 1 - k) < (x.data ++ s.data).length - 1
      then String.mk ((x.data ++ s.data).take
        (x.data.length + (s.data.length - 1 - k)))
      else x ++ s) = x ++ String.mk (s.data.take (s.data.length - 1 - k))
    rw [if_pos hcond]
    show String.mk ((x.data ++ s.data).take
      (x.data.length + (s.data.length - 1 - k))) = _
    rw [List.take_append, strMk_append]

theorem strEndsWith_append (x s : String) : strEndsWith (x ++ s) s = true := by
  unfold strEndsWith
  rw [String.data_append]
  exact List.isSuffixOf_iff_suffix.mpr (List.suffix_append x.data s.data)

theorem strEndsWith_append_ne (x a b : String) (ha : a.data.length = 3)
    (hb : b.data.length = 3) (hne : a ≠ b) : strEndsWith (x ++ b) a = false := by
  have hnot : ¬ a.data <:+ (x.data ++ b.data) := by
    intro hsuf
    have heq := List.suffix_iff_eq_drop.mp hsuf
    rw [List.length_append, ha, hb] at heq
    have hdrop : (x.data ++ b.data).drop (x.data.length + 3 - 3) = b.data := by
      have h3 : x.data.length + 3 - 3 = x.data.length := by omega
      rw [h3, List.drop_left]
    rw [hdrop] at heq
    exact hne (String.ext heq)
  unfold strEndsWith
  rw [String.data_append]
  cases hv : a.data.isSuffixOf (x.data ++ b.data) with
  | false => rfl
  | true => exact absurd (List.isSuffixOf_iff_suffix.mp hv) hnot

theorem strDropRight_append (x s : String) {n : Nat} (hn : s.data.length = n) :
    strDropRight (x ++ s) n = x := by
  unfold strDropRight
  rw [String.data_append, List.length_append, hn]
  have h1 : x.data.length + n - n = x.data.length := by omega
  rw [h1, List.take_left, strMk_data]

theorem stripScale_plain (x : String) (h2 : strEndsWith x "@2x" = false)
    (h3 : strEndsWith x "@3x" = false) : stripScale x = x := by
  unfold stripScale
  rw [h2, h3]
  rfl

theorem stripScale_two (x : String) : stripScale (x ++ "@2x") = x := by
  unfold stripScale
  rw [strEndsWith_append x "@2x"]
  show strDropRight (x ++ "@2x") 3 = x
  exact strDropRight_append x "@2x" rfl

theorem stripScale_three (x : String) : stripScale (x ++ "@3x") = x := by
  unfold stripScale
  rw [strEndsWith_append_ne x "@2x" "@3x" rfl rfl (by decide),
    strEndsWith_append x "@3x"]
  show strDropRight (x ++ "@3x") 3 = x
  exact strDropRight_append x "@3x" rfl

/-- `Path(x + ".png").suffix` and `.stem` for a non-empty base `x`. -/
theorem pyParts_png (x : String) (hx : x ≠ "") :
    pySuffix (x ++ ".png") = ".png" ∧ pyStem (x ++ ".png") = x := by
  obtain ⟨hs, ht⟩ := pyParts_append x ".png" 3 hx (by rfl) (by omega) (by decide)
  refine ⟨by rw [hs]; rfl, ?_⟩
  rw [ht]
  show x ++ "" = x
  exact String.ext (by simp [String.data_append])

/-- `Path(x + "@2x.png").suffix` and `.stem`. -/
theorem pyParts_png2 (x : String) (hx : x ≠ "") :
    pySuffix (x ++ "@2x.png") = ".png" ∧ pyStem (x ++ "@2x.png") = x ++ "@2x" := by
  obtain ⟨hs, ht⟩ := pyParts_append x "@2x.png" 3 hx (by rfl) (by omega) (by decide)
  exact ⟨by rw [hs]; rfl, by rw [ht]; rfl⟩

/-- `Path(x + "@3x.png").suffix` and `.stem`. -/
theorem pyParts_png3 (x : String) (hx : x ≠ "") :
    pySuffix (x ++ "@3x.png") = ".png" ∧ pyStem (x ++ "@3x.png") = x ++ "@3x" := by
  obtain ⟨hs, ht⟩ := pyParts_append x "@3x.png" 3 hx (by rfl) (by omega) (by decide)
  exact ⟨by rw [hs]; rfl, by rw [ht]; rfl⟩

/-! ### Claim theorems: scale-variant grouping (C6) -/

/-- The default source directory path. -/
def srcT : PathC := ["proj", "Sources", "Assets"]

/-- The default destination directory path. -/
def dstT : PathC := ["proj", "Sources", "Assets.xcassets"]

/-- A source holding exactly `x.png`, `x@2x.png`, `x@3x.png` with contents
`c1`, `c2`, `c3`. -/
def fsTriple (x c1 c2 c3 : String) : Fs :=
  { entries := [([], .dir), (["proj"], .dir), (["proj", "Sources"], .dir),
      (srcT, .dir),
      (srcT ++ [x ++ ".png"], .file (.bytes c1)),
      (srcT ++ [x ++ "@2x.png"], .file (.bytes c2)),
      (srcT ++ [x ++ "@3x.png"], .file (.bytes c3))],
    uncopyable := [] }

/-- The state after the destination directory is created in `fsTriple`. -/
def fsTripleM (x c1 c2 c3 : String) : Fs :=
  ((fsTriple x c1 c2 c3).makedirs dstT).getD (fsTriple x c1 c2 c3)

/-- The state after the catalog root manifest is written. -/
def fsTriple3 (x c1 c2 c3 : String) : Fs :=
  (fsTripleM x c1 c2 c3).writeFile (dstT ++ ["Contents.json"]) (.jdata rootJson)

theorem fsTriple_base_lookups (x c1 c2 c3 : String) :
    (fsTriple x c1 c2 c3).lookup [] = some Entry.dir ∧
    (fsTriple x c1 c2 c3).lookup ["proj"] = some Entry.dir ∧
    (fsTriple x c1 c2 c3).lookup ["proj", "Sources"] = some Entry.dir ∧
    (fsTriple x c1 c2 c3).lookup srcT = some Entry.dir ∧
    (fsTriple x c1 c2 c3).lookup dstT = none := by
  refine ⟨rfl, rfl, rfl, rfl, rfl⟩

theorem triple_name_ne_12 (x : String) : x ++ ".png" ≠ x ++ "@2x.png" := by
  intro h
  have h12 := strAppend_left_cancel h
  exact absurd (congrArg String.length h12) (by decide)

theorem triple_name_ne_13 (x : String) : x ++ ".png" ≠ x ++ "@3x.png" := by
  intro h
  have h13 := strAppend_left_cancel h
  exact absurd (congrArg String.length h13) (by decide)

theorem triple_name_ne_23 (x : String) : x ++ "@2x.png" ≠ x ++ "@3x.png" := by
  intro h
  have h23 := strAppend_left_cancel h
  have hd23 := congrArg String.data h23
  simp [String.data_append] at hd23

/-- Unfold a `fsTriple` lookup at a path of the form `srcT ++ [n]` down to
the three file entries. -/
theorem fsTriple_lookup_file (x c1 c2 c3 n : String) :
    (fsTriple x c1 c2 c3).lookup (srcT ++ [n]) =
      if x ++ ".png" = n then some (Entry.file (.bytes c1))
      else if x ++ "@2x.png" = n then some (Entry.file (.bytes c2))
      else if x ++ "@3x.png" = n then some (Entry.file (.bytes c3))
      else none := by
  have h0 : (([] : PathC)) ≠ srcT ++ [n] := by simp [srcT]
  have h1 : ((["proj"] : PathC)) ≠ srcT ++ [n] := by simp [srcT]
  have h2 : ((["proj", "Sources"] : PathC)) ≠ srcT ++ [n] := by simp [srcT]
  have h3 : (srcT : PathC) ≠ srcT ++ [n] := by simp
  have hkey : ∀ m : String, ((srcT ++ [m] : PathC) = srcT ++ [n]) ↔ m = n := by
    intro m
    constructor
    · intro h
      simpa using List.append_cancel_left h
    · intro h
      rw [h]
  show lookupE [(([] : PathC), Entry.dir), ((["proj"] : PathC), Entry.dir),
      ((["proj", "Sources"] : PathC), Entry.dir), ((srcT : PathC), Entry.dir),
      ((srcT ++ [x ++ ".png"] : PathC), Entry.file (.bytes c1)),
      ((srcT ++ [x ++ "@2x.png"] : PathC), Entry.file (.bytes c2)),
      ((srcT ++ [x ++ "@3x.png"] : PathC), Entry.file (.bytes c3))] (srcT ++ [n]) = _
  rw [lookupE_cons, if_neg h0, lookupE_cons, if_neg h1, lookupE_cons, if_neg h2,
    lookupE_cons, if_neg h3, lookupE_cons, lookupE_cons, lookupE_cons]
  by_cases hc1 : x ++ ".png" = n
  · rw [if_pos ((hkey _).mpr hc1), if_pos hc1]
  · rw [if_neg (fun h => hc1 ((hkey _).mp h)), if_neg hc1]
    by_cases hc2 : x ++ "@2x.png" = n
    · rw [if_pos ((hkey _).mpr hc2), if_pos hc2]
    · rw [if_neg (fun h => hc2 ((hkey _).mp h)), if_neg hc2]
      by_cases hc3 : x ++ "@3x.png" = n
      · rw [if_pos ((hkey _).mpr hc3), if_pos hc3]
      · rw [if_neg (fun h => hc3 ((hkey _).mp h)), if_neg hc3]
        rfl

/-- A string with prefix `x` differs from `c` when their suffixes of the
appropriate length differ. -/
theorem append_ne_of_suffix_ne (x t c : String) (hlen : t.data.length ≤ c.data.length)
    (hne : t.data ≠ c.data.drop (c.data.length - t.data.length)) : x ++ t ≠ c := by
  intro h
  have hd := congrArg String.data h
  rw [String.data_append] at hd
  have hx : x.data.length = c.data.length - t.data.length := by
    have := congrArg List.length hd
    rw [List.length_append] at this
    omega
  have hdrop : c.data.drop (c.data.length - t.data.length) = t.data := by
    rw [← hx, ← hd, List.drop_left]
  exact hne hdrop.symm

theorem variantName_png_two (x : String) :
    variantName x ".png" "2x" = x ++ "@2x.png" := by
  show x ++ "@" ++ strHead "2x" ++ "x" ++ ".png" = x ++ "@2x.png"
  apply String.ext
  have da : ("@" : String).data = ['@'] := rfl
  have d2 : (strHead "2x").data = ['2'] := rfl
  have dx : ("x" : String).data = ['x'] := rfl
  have dp : (".png" : String).data = ['.', 'p', 'n', 'g'] := rfl
  have dfull : ("@2x.png" : String).data = ['@', '2', 'x', '.', 'p', 'n', 'g'] := rfl
  simp only [String.data_append, da, d2, dx, dp, dfull, List.append_assoc,
    List.cons_append, List.nil_append]

theorem variantName_png_three (x : String) :
    variantName x ".png" "3x" = x ++ "@3x.png" := by
  show x ++ "@" ++ strHead "3x" ++ "x" ++ ".png" = x ++ "@3x.png"
  apply String.ext
  have da : ("@" : String).data = ['@'] := rfl
  have d3 : (strHead "3x").data = ['3'] := rfl
  have dx : ("x" : String).data = ['x'] := rfl
  have dp : (".png" : String).data = ['.', 'p', 'n', 'g'] := rfl
  have dfull : ("@3x.png" : String).data = ['@', '3', 'x', '.', 'p', 'n', 'g'] := rfl
  simp only [String.data_append, da, d3, dx, dp, dfull, List.append_assoc,
    List.cons_append, List.nil_append]

theorem png_ne_contents (x : String) : x ++ ".png" ≠ "Contents.json" :=
  append_ne_of_suffix_ne x ".png" "Contents.json" (by decide) (by decide)

theorem png2_ne_contents (x : String) : x ++ "@2x.png" ≠ "Contents.json" :=
  append_ne_of_suffix_ne x "@2x.png" "Contents.json" (by decide) (by decide)

theorem png3_ne_contents (x : String) : x ++ "@3x.png" ≠ "Contents.json" :=
  append_ne_of_suffix_ne x "@3x.png" "Contents.json" (by decide) (by decide)

theorem tripleNames_dedup (x : String) :
    ([x ++ ".png", x ++ "@2x.png", x ++ "@3x.png"] : List String).dedup =
      [x ++ ".png", x ++ "@2x.png", x ++ "@3x.png"] := by
  have m1 : (x ++ ".png") ∉ [x ++ "@2x.png", x ++ "@3x.png"] := by
    simp [triple_name_ne_12 x, triple_name_ne_13 x]
  have m2 : (x ++ "@2x.png") ∉ [x ++ "@3x.png"] := by
    simp [triple_name_ne_23 x]
  rw [List.dedup_cons_of_not_mem m1, List.dedup_cons_of_not_mem m2,
    List.dedup_cons_of_not_mem (List.not_mem_nil _), List.dedup_nil]

theorem fsTriple_makedirs (x c1 c2 c3 : String) :
    (fsTriple x c1 c2 c3).makedirs dstT = some (fsTripleM x c1 c2 c3) := rfl

theorem fsTriple3_lookup_src (x c1 c2 c3 n : String) :
    (fsTriple3 x c1 c2 c3).lookup (srcT ++ [n]) =
      (fsTriple x c1 c2 c3).lookup (srcT ++ [n]) := by
  unfold fsTriple3
  rw [Fs.lookup_writeFile]
  have hne : srcT ++ [n] ≠ dstT ++ ["Contents.json"] := by
    intro h
    simp [srcT, dstT] at h
  rw [if_neg hne, Fs.lookup_makedirs (fsTriple_makedirs x c1 c2 c3)]
  have hnp : srcT ++ [n] ∉ prefixesOf dstT := by
    intro hmem
    have := (mem_prefixesOf.mp hmem).length_le
    simp [srcT, dstT] at this
  rw [if_neg (fun h => hnp h.1)]

theorem fsTriple_lookup_under_dst (x c1 c2 c3 n : String) :
    (fsTriple x c1 c2 c3).lookup (dstT ++ [n]) = none := by
  have h0 : (([] : PathC)) ≠ dstT ++ [n] := by simp [dstT]
  have h1 : ((["proj"] : PathC)) ≠ dstT ++ [n] := by simp [dstT]
  have h2 : ((["proj", "Sources"] : PathC)) ≠ dstT ++ [n] := by simp [dstT]
  have h3 : (srcT : PathC) ≠ dstT ++ [n] := by simp [srcT, dstT]
  have h4 : ∀ m : String, (srcT ++ [m] : PathC) ≠ dstT ++ [n] := by
    intro m h
    simp [srcT, dstT] at h
  show lookupE [(([] : PathC), Entry.dir), ((["proj"] : PathC), Entry.dir),
      ((["proj", "Sources"] : PathC), Entry.dir), ((srcT : PathC), Entry.dir),
      ((srcT ++ [x ++ ".png"] : PathC), Entry.file (.bytes c1)),
      ((srcT ++ [x ++ "@2x.png"] : PathC), Entry.file (.bytes c2)),
      ((srcT ++ [x ++ "@3x.png"] : PathC), Entry.file (.bytes c3))] (dstT ++ [n]) = _
  rw [lookupE_cons, if_neg h0, lookupE_cons, if_neg h1, lookupE_cons, if_neg h2,
    lookupE_cons, if_neg h3, lookupE_cons, if_neg (h4 _), lookupE_cons,
    if_neg (h4 _), lookupE_cons, if_neg (h4 _)]
  rfl

theorem fsTriple3_lookup_isd (x c1 c2 c3 : String) :
    (fsTriple3 x c1 c2 c3).lookup (dstT ++ [x ++ ".imageset"]) = none := by
  unfold fsTriple3
  rw [Fs.lookup_writeFile]
  have hne : dstT ++ [x ++ ".imageset"] ≠ dstT ++ ["Contents.json"] := by
    intro h
    exact imageset_ne_contents x (by simpa using List.append_cancel_left h)
  rw [if_neg hne, Fs.lookup_makedirs (fsTriple_makedirs x c1 c2 c3)]
  have hnp : dstT ++ [x ++ ".imageset"] ∉ prefixesOf dstT := by
    intro hmem
    have := (mem_prefixesOf.mp hmem).length_le
    simp [dstT] at this
  rw [if_neg (fun h => hnp h.1)]
  exact fsTriple_lookup_under_dst x c1 c2 c3 _

theorem fsTriple3_not_blocked (x c1 c2 c3 : String) :
    (fsTriple3 x c1 c2 c3).mkdirBlocked (dstT ++ [x ++ ".imageset"]) = false := by
  have hpre : prefixesOf (dstT ++ [x ++ ".imageset"]) =
      [[], ["proj"], ["proj", "Sources"], dstT, dstT ++ [x ++ ".imageset"]] := rfl
  have l0 : (fsTriple3 x c1 c2 c3).lookup [] = some Entry.dir := rfl
  have l1 : (fsTriple3 x c1 c2 c3).lookup ["proj"] = some Entry.dir := rfl
  have l2 : (fsTriple3 x c1 c2 c3).lookup ["proj", "Sources"] = some Entry.dir := rfl
  have l3 : (fsTriple3 x c1 c2 c3).lookup dstT = some Entry.dir := rfl
  unfold Fs.mkdirBlocked
  rw [hpre]
  simp only [List.any_cons, List.any_nil]
  rw [l0, l1, l2, l3, fsTriple3_lookup_isd]
  rfl

theorem fsTriple3_listdir (x c1 c2 c3 : String) :
    (fsTriple3 x c1 c2 c3).listdir srcT =
      some [x ++ ".png", x ++ "@2x.png", x ++ "@3x.png"] := by
  have hs3 : (fsTriple3 x c1 c2 c3).lookup srcT = some Entry.dir := rfl
  unfold Fs.listdir
  rw [hs3]
  show some (([x ++ ".png", x ++ "@2x.png", x ++ "@3x.png"] : List String).dedup) = _
  rw [tripleNames_dedup x]

theorem fsTriple_groups (x : String) (hx : x ≠ "")
    (h2 : strEndsWith x "@2x" = false) (h3 : strEndsWith x "@3x" = false) :
    discoverGroups [x ++ ".png", x ++ "@2x.png", x ++ "@3x.png"] = [(x, ".png")] := by
  unfold discoverGroups
  have hfil : filterImages [x ++ ".png", x ++ "@2x.png", x ++ "@3x.png"] =
      [x ++ ".png", x ++ "@2x.png", x ++ "@3x.png"] := by
    unfold filterImages
    have e1 : image_extensions.contains (strLower (pySuffix (x ++ ".png"))) = true := by
      rw [(pyParts_png x hx).1]
      rfl
    have e2 : image_extensions.contains (strLower (pySuffix (x ++ "@2x.png"))) = true := by
      rw [(pyParts_png2 x hx).1]
      rfl
    have e3 : image_extensions.contains (strLower (pySuffix (x ++ "@3x.png"))) = true := by
      rw [(pyParts_png3 x hx).1]
      rfl
    simp only [List.filter_cons, e1, e2, e3, List.filter_nil, if_pos, ite_true]
  rw [hfil]
  have hmap : List.map (fun f => (stripScale (pyStem f), pySuffix f))
      [x ++ ".png", x ++ "@2x.png", x ++ "@3x.png"] = [(x, ".png"), (x, ".png"), (x, ".png")] := by
    simp only [List.map_cons, List.map_nil]
    rw [(pyParts_png x hx).1, (pyParts_png x hx).2,
      (pyParts_png2 x hx).1, (pyParts_png2 x hx).2,
      (pyParts_png3 x hx).1, (pyParts_png3 x hx).2,
      stripScale_plain x h2 h3, stripScale_two x, stripScale_three x]
  rw [hmap]
  rw [List.dedup_cons_of_mem (by simp), List.dedup_cons_of_mem (by simp),
    List.dedup_cons_of_not_mem (List.not_mem_nil _), List.dedup_nil]

/-- C6: for a source directory holding exactly `x.png`, `x@2x.png` and
`x@3x.png` (the base `x` non-empty and not itself ending in a scale
suffix), grouping strips the `@2x`/`@3x` suffixes so all three collapse to
the single group `(x, ".png")`; migration succeeds and produces exactly one
`x.imageset`, whose manifest has three entries all carrying filenames and
whose three files are copied byte-identical to the sources. -/
theorem c6_scale_variants_one_imageset (x c1 c2 c3 : String) (hx : x ≠ "")
    (h2 : strEndsWith x "@2x" = false) (h3 : strEndsWith x "@3x" = false) :
    discoverGroups [x ++ ".png", x ++ "@2x.png", x ++ "@3x.png"] = [(x, ".png")] ∧
    (migrate_assets (fsTriple x c1 c2 c3) ["proj"] srcT dstT).1 = true ∧
    (migrate_assets (fsTriple x c1 c2 c3) ["proj"] srcT dstT).2.lookup
      (dstT ++ [x ++ ".imageset", "Contents.json"]) =
      some (.file (.jdata (contentsJson
        [imageEntry "1x" (some (x ++ ".png")),
         imageEntry "2x" (some (x ++ "@2x.png")),
         imageEntry "3x" (some (x ++ "@3x.png"))]))) ∧
    (migrate_assets (fsTriple x c1 c2 c3) ["proj"] srcT dstT).2.lookup
      (dstT ++ [x ++ ".imageset", x ++ ".png"]) = some (.file (.bytes c1)) ∧
    (migrate_assets (fsTriple x c1 c2 c3) ["proj"] srcT dstT).2.lookup
      (dstT ++ [x ++ ".imageset", x ++ "@2x.png"]) = some (.file (.bytes c2)) ∧
    (migrate_assets (fsTriple x c1 c2 c3) ["proj"] srcT dstT).2.lookup
      (dstT ++ [x ++ ".imageset", x ++ "@3x.png"]) = some (.file (.bytes c3)) ∧
    (∀ n : String,
      ((migrate_assets (fsTriple x c1 c2 c3) ["proj"] srcT dstT).2.lookup
        (dstT ++ [n])).isSome →
      n = "Contents.json" ∨ n = x ++ ".imageset") := by
  have hsrcdir : (fsTriple x c1 c2 c3).isDir srcT := rfl
  have hguard : safe_rmtree (fsTriple x c1 c2 c3) dstT (["proj"] ++ ["Sources"]) =
      (true, fsTriple x c1 c2 c3) :=
    safe_rmtree_not_exists _ dstT _ (by
      rw [show (fsTriple x c1 c2 c3).pathExists dstT = false from rfl]
      simp)
  have hb3 : (fsTripleM x c1 c2 c3).writeFile (dstT ++ ["Contents.json"])
      (.jdata rootJson) = fsTriple3 x c1 c2 c3 := rfl
  have hrun : migrate_assets (fsTriple x c1 c2 c3) ["proj"] srcT dstT =
      processGroups (fsTriple3 x c1 c2 c3) srcT dstT
        (buildOrder [x ++ ".png", x ++ "@2x.png", x ++ "@3x.png"]) := by
    rw [migrate_assets_eq_processing ["proj"] srcT dstT hsrcdir hguard
      (fsTriple_makedirs x c1 c2 c3), hb3, fsTriple3_listdir]
  have hsort : buildOrder [x ++ ".png", x ++ "@2x.png", x ++ "@3x.png"] = [(x, ".png")] := by
    unfold buildOrder
    rw [fsTriple_groups x hx h2 h3]
    rfl
  rw [hrun, hsort]
  have hps : processGroups (fsTriple3 x c1 c2 c3) srcT dstT [(x, ".png")] =
      (true && (create_imageset (fsTriple3 x c1 c2 c3) srcT dstT x ".png" scalesList).1,
       (create_imageset (fsTriple3 x c1 c2 c3) srcT dstT x ".png" scalesList).2) := rfl
  rw [hps]
  cases hm4 : (fsTriple3 x c1 c2 c3).makedirs (imagesetDir dstT x) with
  | none =>
    exfalso
    rw [show imagesetDir dstT x = dstT ++ [x ++ ".imageset"] from rfl,
      Fs.makedirs, fsTriple3_not_blocked] at hm4
    simp at hm4
  | some s4 =>
    obtain ⟨hfst, hlook⟩ := create_imageset_run srcT dstT x ".png" hm4 (by
      intro h
      obtain ⟨t, ht⟩ := h
      simp [srcT, dstT, imagesetDir] at ht)
    have hv1 : variantName x ".png" "1x" = x ++ ".png" := rfl
    rw [hv1, variantName_png_two, variantName_png_three] at hlook
    have hsl1 : (fsTriple3 x c1 c2 c3).lookup (srcT ++ [x ++ ".png"]) =
        some (Entry.file (.bytes c1)) := by
      rw [fsTriple3_lookup_src, fsTriple_lookup_file, if_pos rfl]
    have hsl2 : (fsTriple3 x c1 c2 c3).lookup (srcT ++ [x ++ "@2x.png"]) =
        some (Entry.file (.bytes c2)) := by
      rw [fsTriple3_lookup_src, fsTriple_lookup_file,
        if_neg (triple_name_ne_12 x), if_pos rfl]
    have hsl3 : (fsTriple3 x c1 c2 c3).lookup (srcT ++ [x ++ "@3x.png"]) =
        some (Entry.file (.bytes c3)) := by
      rw [fsTriple3_lookup_src, fsTriple_lookup_file,
        if_neg (triple_name_ne_13 x), if_neg (triple_name_ne_23 x), if_pos rfl]
    have hsd1 : sourceFileData (fsTriple3 x c1 c2 c3) (srcT ++ [x ++ ".png"]) =
        some (.bytes c1) := by
      unfold sourceFileData
      rw [hsl1]
    have hsd2 : sourceFileData (fsTriple3 x c1 c2 c3) (srcT ++ [x ++ "@2x.png"]) =
        some (.bytes c2) := by
      unfold sourceFileData
      rw [hsl2]
    have hsd3 : sourceFileData (fsTriple3 x c1 c2 c3) (srcT ++ [x ++ "@3x.png"]) =
        some (.bytes c3) := by
      unfold sourceFileData
      rw [hsl3]
    have hcp1 : variantCopied (fsTriple3 x c1 c2 c3) srcT (x ++ ".png") = true := by
      unfold variantCopied
      rw [hsd1]
      rfl
    have hcp2 : variantCopied (fsTriple3 x c1 c2 c3) srcT (x ++ "@2x.png") = true := by
      unfold variantCopied
      rw [hsd2]
      rfl
    have hcp3 : variantCopied (fsTriple3 x c1 c2 c3) srcT (x ++ "@3x.png") = true := by
      unfold variantCopied
      rw [hsd3]
      rfl
    have heimg : expectedImages (fsTriple3 x c1 c2 c3) srcT x ".png" =
        [imageEntry "1x" (some (x ++ ".png")),
         imageEntry "2x" (some (x ++ "@2x.png")),
         imageEntry "3x" (some (x ++ "@3x.png"))] := by
      unfold expectedImages expectedEntry
      rw [hv1, variantName_png_two, variantName_png_three, hcp1, hcp2, hcp3]
      rfl
    refine ⟨fsTriple_groups x hx h2 h3, by simp [hfst], ?_, ?_, ?_, ?_, ?_⟩
    · show (create_imageset (fsTriple3 x c1 c2 c3) srcT dstT x ".png" scalesList).2.lookup
        (dstT ++ [x ++ ".imageset", "Contents.json"]) = _
      rw [hlook, if_pos (show dstT ++ [x ++ ".imageset", "Contents.json"] =
        imagesetDir dstT x ++ ["Contents.json"] from rfl), heimg]
    · show (create_imageset (fsTriple3 x c1 c2 c3) srcT dstT x ".png" scalesList).2.lookup
        (dstT ++ [x ++ ".imageset", x ++ ".png"]) = _
      rw [hlook]
      rw [if_neg (by
        intro h
        have := List.append_cancel_left
          (show (dstT ++ [x ++ ".imageset"]) ++ [x ++ ".png"] =
            imagesetDir dstT x ++ ["Contents.json"] by
              rw [← h]
              simp [imagesetDir])
        exact png_ne_contents x (by simpa using this))]
      rw [if_neg (fun hc => triple_name_ne_13 x (by
        have := hc.1
        have h5 := List.append_cancel_left
          (show (dstT ++ [x ++ ".imageset"]) ++ [x ++ ".png"] =
            (dstT ++ [x ++ ".imageset"]) ++ [x ++ "@3x.png"] by
              rw [show (dstT ++ [x ++ ".imageset"]) ++ [x ++ ".png"] =
                dstT ++ [x ++ ".imageset", x ++ ".png"] from rfl]
              rw [this]
              simp [imagesetDir])
        simpa using h5))]
      rw [if_neg (fun hc => triple_name_ne_12 x (by
        have := hc.1
        have h5 := List.append_cancel_left
          (show (dstT ++ [x ++ ".imageset"]) ++ [x ++ ".png"] =
            (dstT ++ [x ++ ".imageset"]) ++ [x ++ "@2x.png"] by
              rw [show (dstT ++ [x ++ ".imageset"]) ++ [x ++ ".png"] =
                dstT ++ [x ++ ".imageset", x ++ ".png"] from rfl]
              rw [this]
              simp [imagesetDir])
        simpa using h5))]
      rw [if_pos ⟨show dstT ++ [x ++ ".imageset", x ++ ".png"] =
        imagesetDir dstT x ++ [x ++ ".png"] from rfl, hcp1⟩, hsd1]
      rfl
    · show (create_imageset (fsTriple3 x c1 c2 c3) srcT dstT x ".png" scalesList).2.lookup
        (dstT ++ [x ++ ".imageset", x ++ "@2x.png"]) = _
      rw [hlook]
      rw [if_neg (by
        intro h
        have := List.append_cancel_left
          (show (dstT ++ [x ++ ".imageset"]) ++ [x ++ "@2x.png"] =
            imagesetDir dstT x ++ ["Contents.json"] by
              rw [← h]
              simp [imagesetDir])
        exact png2_ne_contents x (by simpa using this))]
      rw [if_neg (fun hc => triple_name_ne_23 x (by
        have := hc.1
        have h5 := List.append_cancel_left
          (show (dstT ++ [x ++ ".imageset"]) ++ [x ++ "@2x.png"] =
            (dstT ++ [x ++ ".imageset"]) ++ [x ++ "@3x.png"] by
              rw [show (dstT ++ [x ++ ".imageset"]) ++ [x ++ "@2x.png"] =
                dstT ++ [x ++ ".imageset", x ++ "@2x.png"] from rfl]
              rw [this]
              simp [imagesetDir])
        simpa using h5))]
      rw [if_pos ⟨show dstT ++ [x ++ ".imageset", x ++ "@2x.png"] =
        imagesetDir dstT x ++ [x ++ "@2x.png"] from rfl, hcp2⟩, hsd2]
      rfl
    · show (create_imageset (fsTriple3 x c1 c2 c3) srcT dstT x ".png" scalesList).2.lookup
        (dstT ++ [x ++ ".imageset", x ++ "@3x.png"]) = _
      rw [hlook]
      rw [if_neg (by
        intro h
        have := List.append_cancel_left
          (show (dstT ++ [x ++ ".imageset"]) ++ [x ++ "@3x.png"] =
            imagesetDir dstT x ++ ["Contents.json"] by
              rw [← h]
              simp [imagesetDir])
        exact png3_ne_contents x (by simpa using this))]
      rw [if_pos ⟨show dstT ++ [x ++ ".imageset", x ++ "@3x.png"] =
        imagesetDir dstT x ++ [x ++ "@3x.png"] from rfl, hcp3⟩, hsd3]
      rfl
    · intro n hsome
      by_cases hn : n = x ++ ".imageset"
      · exact Or.inr hn
      by_cases hcj : n = "Contents.json"
      · exact Or.inl hcj
      exfalso
      rw [hlook] at hsome
      rw [if_neg (by
        intro h
        have := congrArg List.length h
        simp [dstT, imagesetDir] at this)] at hsome
      rw [if_neg (fun hc => by
        have := congrArg List.length hc.1
        simp [dstT, imagesetDir] at this)] at hsome
      rw [if_neg (fun hc => by
        have := congrArg List.length hc.1
        simp [dstT, imagesetDir] at this)] at hsome
      rw [if_neg (fun hc => by
        have := congrArg List.length hc.1
        simp [dstT, imagesetDir] at this)] at hsome
      rw [Fs.lookup_makedirs hm4] at hsome
      rw [if_neg (by
        rintro ⟨hmem, _⟩
        have hp := mem_prefixesOf.mp hmem
        have heq := hp.eq_of_length (by simp [dstT, imagesetDir])
        exact hn (by simpa [imagesetDir, dstT] using heq))] at hsome
      have hval : (fsTriple3 x c1 c2 c3).lookup (dstT ++ [n]) = none := by
        unfold fsTriple3
        rw [Fs.lookup_writeFile]
        rw [if_neg (by
          intro h
          exact hcj (by simpa using List.append_cancel_left h))]
        rw [Fs.lookup_makedirs (fsTriple_makedirs x c1 c2 c3)]
        rw [if_neg (fun hc => by
          have := (mem_prefixesOf.mp hc.1).length_le
          simp [dstT] at this)]
        exact fsTriple_lookup_under_dst x c1 c2 c3 n
      rw [hval] at hsome
      simp at hsome

/-- Witness for C6: the triple `logo.png`, `logo@2x.png`, `logo@3x.png` with
distinct byte contents collapses to one group and yields one imageset with a
full three-filename manifest and byte-identical copies. -/
theorem c6_scale_variants_one_imageset_witness :
    discoverGroups ["logo" ++ ".png", "logo" ++ "@2x.png", "logo" ++ "@3x.png"] =
      [("logo", ".png")] ∧
    (migrate_assets (fsTriple "logo" "A" "B" "C") ["proj"] srcT dstT).1 = true ∧
    (migrate_assets (fsTriple "logo" "A" "B" "C") ["proj"] srcT dstT).2.lookup
      (dstT ++ ["logo" ++ ".imageset", "Contents.json"]) =
      some (.file (.jdata (contentsJson
        [imageEntry "1x" (some ("logo" ++ ".png")),
         imageEntry "2x" (some ("logo" ++ "@2x.png")),
         imageEntry "3x" (some ("logo" ++ "@3x.png"))]))) ∧
    (migrate_assets (fsTriple "logo" "A" "B" "C") ["proj"] srcT dstT).2.lookup
      (dstT ++ ["logo" ++ ".imageset", "logo" ++ ".png"]) = some (.file (.bytes "A")) ∧
    (migrate_assets (fsTriple "logo" "A" "B" "C") ["proj"] srcT dstT).2.lookup
      (dstT ++ ["logo" ++ ".imageset", "logo" ++ "@2x.png"]) = some (.file (.bytes "B")) ∧
    (migrate_assets (fsTriple "logo" "A" "B" "C") ["proj"] srcT dstT).2.lookup
      (dstT ++ ["logo" ++ ".imageset", "logo" ++ "@3x.png"]) = some (.file (.bytes "C")) ∧
    (∀ n : String,
      ((migrate_assets (fsTriple "logo" "A" "B" "C") ["proj"] srcT dstT).2.lookup
        (dstT ++ [n])).isSome →
      n = "Contents.json" ∨ n = "logo" ++ ".imageset") :=
  c6_scale_variants_one_imageset "logo" "A" "B" "C" (by decide) (by rfl) (by rfl)

/-! ### Idempotence of migration (C8): infrastructure -/

theorem lookupE_isSome_iff (es : List (PathC × Entry)) (q : PathC) :
    (lookupE es q).isSome ↔ ∃ v, (q, v) ∈ es := by
  induction es with
  | nil => simp [lookupE]
  | cons hd tl ih =>
    obtain ⟨k, v⟩ := hd
    rw [lookupE_cons]
    by_cases hk : k = q
    · subst hk
      simp
    · rw [if_neg hk, ih]
      constructor
      · rintro ⟨w, hw⟩
        exact ⟨w, List.mem_cons_of_mem _ hw⟩
      · rintro ⟨w, hw⟩
        rcases List.mem_cons.mp hw with h | h
        · exact absurd (congrArg Prod.fst h).symm hk
        · exact ⟨w, h⟩

theorem childrenE_mem (es : List (PathC × Entry)) (p : PathC) (n : String) :
    n ∈ childrenE es p ↔ (lookupE es (p ++ [n])).isSome := by
  rw [lookupE_isSome_iff]
  unfold childrenE
  rw [List.mem_dedup, List.mem_filterMap]
  constructor
  · rintro ⟨e, he, hcond⟩
    obtain ⟨k, v⟩ := e
    by_cases hc : (k.length = p.length + 1 && p.isPrefixOf k) = true
    · rw [if_pos hc] at hcond
      have hlen : k.length = p.length + 1 := by
        have := (Bool.and_eq_true _ _).mp hc
        exact of_decide_eq_true this.1
      have hpre : p <+: k := List.isPrefixOf_iff_prefix.mp ((Bool.and_eq_true _ _).mp hc).2
      obtain ⟨t, ht⟩ := hpre
      have htlen : t.length = 1 := by
        have := congrArg List.length ht
        simp at this
        omega
      obtain ⟨c, rfl⟩ := List.length_eq_one.mp htlen
      have hcn : c = n := by
        rw [← ht] at hcond
        rw [List.getLast?_concat] at hcond
        exact Option.some.injEq _ _ ▸ (by simpa using hcond)
      subst hcn
      exact ⟨v, by rw [ht]; exact he⟩
    · rw [if_neg hc] at hcond
      exact absurd hcond (by simp)
  · rintro ⟨v, hv⟩
    refine ⟨(p ++ [n], v), hv, ?_⟩
    have hc : ((p ++ [n] : PathC).length = p.length + 1 && p.isPrefixOf (p ++ [n])) = true := by
      simp [List.isPrefixOf_iff_prefix]
    rw [if_pos hc]
    exact List.getLast?_concat _

theorem childrenE_nodup (es : List (PathC × Entry)) (p : PathC) :
    (childrenE es p).Nodup :=
  List.nodup_dedup _

theorem childrenE_mem_lookup (s : Fs) (p : PathC) (n : String) :
    n ∈ childrenE s.entries p ↔ (s.lookup (p ++ [n])).isSome :=
  childrenE_mem s.entries p n

/-- Filesystem well-formedness: every entry's parent is present as a
directory (as holds of any state read off a real filesystem). -/
def wfB (s : Fs) : Bool :=
  s.entries.all (fun ent =>
    ent.1.isEmpty ||
    (match lookupE s.entries ent.1.dropLast with
     | some Entry.dir => true
     | _ => false))

theorem wfB_parent {s : Fs} (hwf : wfB s = true) {p : PathC} {a : String}
    (h : (s.lookup (p ++ [a])).isSome) : s.lookup p = some Entry.dir := by
  obtain ⟨v, hv⟩ := (lookupE_isSome_iff s.entries (p ++ [a])).mp h
  have hall := List.all_eq_true.mp hwf (p ++ [a], v) hv
  have hne : ((p ++ [a] : PathC).isEmpty) = false := by
    cases p <;> rfl
  rw [show ((p ++ [a], v) : PathC × Entry).1 = p ++ [a] from rfl] at hall
  rw [hne, Bool.false_or, List.dropLast_concat] at hall
  show lookupE s.entries p = some Entry.dir
  cases hlp : lookupE s.entries p with
  | none =>
    rw [hlp] at hall
    exact absurd hall (by simp)
  | some en =>
    cases en with
    | dir => rfl
    | file d =>
      rw [hlp] at hall
      exact absurd hall (by simp)

theorem wfB_ancestor {s : Fs} (hwf : wfB s = true) :
    ∀ q p : PathC, p <+: q → p ≠ q → (s.lookup q).isSome → s.lookup p = some Entry.dir := by
  intro q
  induction q using List.reverseRecOn with
  | nil =>
    intro p hp hne _
    exact absurd (List.prefix_nil.mp hp) hne
  | append_singleton qs a ih =>
    intro p hp hne hq
    have hqs : s.lookup qs = some Entry.dir := wfB_parent hwf hq
    rcases List.prefix_concat_iff.mp hp with h | h
    · exact absurd h hne
    · by_cases hpq : p = qs
      · rw [hpq]
        exact hqs
      · exact ih p h hpq (by rw [hqs]; rfl)

/-- Under well-formedness, a missing directory has no entries below it. -/
theorem wfB_no_orphans {s : Fs} (hwf : wfB s = true) {d q : PathC}
    (hnd : ¬ s.pathExists d) (hdq : d <+: q) : s.lookup q = none := by
  cases hq : s.lookup q with
  | none => rfl
  | some en =>
    exfalso
    by_cases hqd : d = q
    · subst hqd
      exact hnd (by simp [Fs.pathExists, hq])
    · have := wfB_ancestor hwf q d hdq hqd (by rw [hq]; rfl)
      exact hnd (by simp [Fs.pathExists, this])

/-- The build order depends only on the listing up to permutation. -/
theorem buildOrder_eq_of_perm {n1 n2 : List String} (h : List.Perm n1 n2) :
    buildOrder n1 = buildOrder n2 := by
  have hd : List.Perm (discoverGroups n1) (discoverGroups n2) := by
    unfold discoverGroups filterImages
    exact List.Perm.dedup (List.Perm.map _ (List.Perm.filter _ h))
  exact List.eq_of_perm_of_sorted
    (((List.perm_insertionSort pairLeR (discoverGroups n1)).trans hd).trans
      (List.perm_insertionSort pairLeR (discoverGroups n2)).symm)
    (List.sorted_insertionSort pairLeR (discoverGroups n1))
    (List.sorted_insertionSort pairLeR (discoverGroups n2))

theorem safe_rmtree_false_snd {s sg : Fs} {path ep : PathC}
    (h : safe_rmtree s path ep = (false, sg)) : sg = s := by
  by_cases h1 : s.pathExists path
  · simp only [safe_rmtree] at h
    rw [if_neg (not_not_intro h1)] at h
    by_cases h2 : pathStr path = "" ∨ pathStr path = "/" ∨ pathStr path = "/"
    · rw [if_pos h2] at h
      exact ((Prod.mk.injEq _ _ _ _).mp h).2.symm
    · rw [if_neg h2] at h
      by_cases h3 : commonpathStr ep path ≠ pathStr ep
      · rw [if_pos h3] at h
        exact ((Prod.mk.injEq _ _ _ _).mp h).2.symm
      · rw [if_neg h3] at h
        exact absurd ((Prod.mk.injEq _ _ _ _).mp h).1 (by decide)
  · rw [safe_rmtree_not_exists s path ep h1] at h
    exact absurd ((Prod.mk.injEq _ _ _ _).mp h).1 (by decide)

theorem safe_rmtree_true_inv {s sg : Fs} {path ep : PathC}
    (h : safe_rmtree s path ep = (true, sg)) :
    (¬ s.pathExists path ∧ sg = s) ∨ (s.pathExists path ∧ sg = s.rmtree path) := by
  by_cases h1 : s.pathExists path
  · refine Or.inr ⟨h1, ?_⟩
    simp only [safe_rmtree] at h
    rw [if_neg (not_not_intro h1)] at h
    by_cases h2 : pathStr path = "" ∨ pathStr path = "/" ∨ pathStr path = "/"
    · rw [if_pos h2] at h
      exact absurd ((Prod.mk.injEq _ _ _ _).mp h).1 (by decide)
    · rw [if_neg h2] at h
      by_cases h3 : commonpathStr ep path ≠ pathStr ep
      · rw [if_pos h3] at h
        exact absurd ((Prod.mk.injEq _ _ _ _).mp h).1 (by decide)
      · rw [if_neg h3] at h
        exact ((Prod.mk.injEq _ _ _ _).mp h).2.symm
  · rw [safe_rmtree_not_exists s path ep h1] at h
    exact Or.inl ⟨h1, ((Prod.mk.injEq _ _ _ _).mp h).2.symm⟩

theorem migrate_assets_mkdir_fails {s sg : Fs} (root src dst : PathC)
    (hsrc : s.isDir src)
    (hg : safe_rmtree s dst (root ++ ["Sources"]) = (true, sg))
    (hm : sg.makedirs dst = none) :
    migrate_assets s root src dst = (false, sg) := by
  simp [migrate_assets, Fs.isDir_pathExists hsrc, hsrc, hg, hm]

/-! ### Congruence: the builder's output tree depends only on the lookup
function and the uncopyable set of its input state -/

theorem scaleStep_congr (src isd : PathC) (b e sc : String)
    (acc1 acc2 : List Json × Fs) (hj : acc1.1 = acc2.1)
    (hl : ∀ q, acc1.2.lookup q = acc2.2.lookup q)
    (hu : acc1.2.uncopyable = acc2.2.uncopyable) :
    (scaleStep src isd b e acc1 sc).1 = (scaleStep src isd b e acc2 sc).1 ∧
    (∀ q, (scaleStep src isd b e acc1 sc).2.lookup q =
      (scaleStep src isd b e acc2 sc).2.lookup q) ∧
    (scaleStep src isd b e acc1 sc).2.uncopyable =
      (scaleStep src isd b e acc2 sc).2.uncopyable := by
  obtain ⟨h11, h12, h13⟩ := scaleStep_char (s := acc2.2) src isd b e sc acc1 (hl _) hu
  obtain ⟨h21, h22, h23⟩ := scaleStep_char (s := acc2.2) src isd b e sc acc2 rfl rfl
  refine ⟨by rw [h11, h21, hj], fun q => ?_, by rw [h13, h23]⟩
  rw [h12 q, h22 q]
  by_cases hc : q = isd ++ [variantName b e sc] ∧
      variantCopied acc2.2 src (variantName b e sc) = true
  · rw [if_pos hc, if_pos hc]
  · rw [if_neg hc, if_neg hc]
    exact hl q

theorem scaleFold_congr (src isd : PathC) (b e : String) (scales : List String)
    (acc1 acc2 : List Json × Fs) (hj : acc1.1 = acc2.1)
    (hl : ∀ q, acc1.2.lookup q = acc2.2.lookup q)
    (hu : acc1.2.uncopyable = acc2.2.uncopyable) :
    (scales.foldl (scaleStep src isd b e) acc1).1 =
      (scales.foldl (scaleStep src isd b e) acc2).1 ∧
    (∀ q, (scales.foldl (scaleStep src isd b e) acc1).2.lookup q =
      (scales.foldl (scaleStep src isd b e) acc2).2.lookup q) ∧
    (scales.foldl (scaleStep src isd b e) acc1).2.uncopyable =
      (scales.foldl (scaleStep src isd b e) acc2).2.uncopyable := by
  induction scales generalizing acc1 acc2 with
  | nil => exact ⟨hj, hl, hu⟩
  | cons sc rest ih =>
    obtain ⟨h1, h2, h3⟩ := scaleStep_congr src isd b e sc acc1 acc2 hj hl hu
    rw [List.foldl_cons, List.foldl_cons]
    exact ih _ _ h1 h2 h3

theorem create_imageset_congr (u v : Fs) (src dst : PathC) (b e : String)
    (scales : List String)
    (hl : ∀ q, u.lookup q = v.lookup q) (hu : u.uncopyable = v.uncopyable) :
    (create_imageset u src dst b e scales).1 = (create_imageset v src dst b e scales).1 ∧
    (∀ q, (create_imageset u src dst b e scales).2.lookup q =
      (create_imageset v src dst b e scales).2.lookup q) ∧
    (create_imageset u src dst b e scales).2.uncopyable =
      (create_imageset v src dst b e scales).2.uncopyable := by
  have hb : u.mkdirBlocked (imagesetDir dst b) = v.mkdirBlocked (imagesetDir dst b) := by
    unfold Fs.mkdirBlocked
    congr 1
    funext q
    rw [hl q]
  cases hmu : u.makedirs (imagesetDir dst b) with
  | none =>
    have hbu : u.mkdirBlocked (imagesetDir dst b) = true := by
      by_cases hbu : u.mkdirBlocked (imagesetDir dst b)
      · exact hbu
      · exact absurd hmu (by simp [Fs.makedirs, hbu])
    have hmv : v.makedirs (imagesetDir dst b) = none := by
      simp [Fs.makedirs, ← hb, hbu]
    simp only [create_imageset, hmu, hmv]
    exact ⟨trivial, hl, hu⟩
  | some u1 =>
    have hbu : u.mkdirBlocked (imagesetDir dst b) = false := by
      by_cases hbu : u.mkdirBlocked (imagesetDir dst b)
      · exact absurd hmu (by simp [Fs.makedirs, hbu])
      · simpa using hbu
    have hbv : v.mkdirBlocked (imagesetDir dst b) = false := by
      rw [← hb]
      exact hbu
    cases hmv : v.makedirs (imagesetDir dst b) with
    | none =>
      exfalso
      rw [Fs.makedirs, hbv] at hmv
      simp at hmv
    | some v1 =>
      have hl1 : ∀ q, u1.lookup q = v1.lookup q := by
        intro q
        rw [Fs.lookup_makedirs hmu q, Fs.lookup_makedirs hmv q, hl q]
      have hu1 : u1.uncopyable = v1.uncopyable := by
        rw [Fs.uncopyable_makedirs hmu, Fs.uncopyable_makedirs hmv, hu]
      obtain ⟨hf1, hf2, hf3⟩ := scaleFold_congr src (imagesetDir dst b) b e scales
        ([], u1) ([], v1) rfl hl1 hu1
      simp only [create_imageset, hmu, hmv]
      refine ⟨trivial, fun q => ?_,
        by rw [Fs.uncopyable_writeFile, Fs.uncopyable_writeFile, hf3]⟩
      rw [Fs.lookup_writeFile, Fs.lookup_writeFile, hf1]
      by_cases hq : q = imagesetDir dst b ++ ["Contents.json"]
      · rw [if_pos hq, if_pos hq]
      · rw [if_neg hq, if_neg hq]
        exact hf2 q

theorem processGroups_congr (src dst : PathC) (groups : List (String × String))
    (u v : Fs)
    (hl : ∀ q, u.lookup q = v.lookup q) (hu : u.uncopyable = v.uncopyable) :
    (∀ q, (processGroups u src dst groups).2.lookup q =
      (processGroups v src dst groups).2.lookup q) ∧
    (processGroups u src dst groups).2.uncopyable =
      (processGroups v src dst groups).2.uncopyable := by
  induction groups generalizing u v with
  | nil => exact ⟨hl, hu⟩
  | cons g rest ih =>
    obtain ⟨_, h2, h3⟩ := create_imageset_congr u v src dst g.1 g.2 scalesList hl hu
    simp only [processGroups_cons_snd]
    exact ih _ _ h2 h3

/-- C8: running the migration twice in succession on an unchanged source
yields extensionally identical trees — every path holds the same entry
after the second run as after the first.  The input state is well-formed
(every entry's parent is a directory, as on a real filesystem) and the
source and destination trees are disjoint: a destination inside the source
tree, or a source inside the destination, would itself change the source
during the first run, contradicting the claim's unchanged-source premise. -/
theorem c8_migrate_twice_idempotent (s : Fs) (root src dst : PathC)
    (hwf : wfB s = true) (hsd : ¬ src <+: dst) (hds : ¬ dst <+: src) :
    ∀ q, ((migrate_assets (migrate_assets s root src dst).2 root src dst).2).lookup q =
      ((migrate_assets s root src dst).2).lookup q := by
  intro q0
  by_cases hex : s.pathExists src
  case neg =>
    have h1 : migrate_assets s root src dst = (false, s) :=
      migrate_assets_aborts root src dst (Or.inl hex)
    rw [h1]
    show (migrate_assets s root src dst).2.lookup q0 = s.lookup q0
    rw [h1]
  case pos =>
  by_cases hdir : s.isDir src
  case neg =>
    have h1 : migrate_assets s root src dst = (false, s) :=
      migrate_assets_aborts root src dst (Or.inr (Or.inl hdir))
    rw [h1]
    show (migrate_assets s root src dst).2.lookup q0 = s.lookup q0
    rw [h1]
  case pos =>
  cases hg : safe_rmtree s dst (root ++ ["Sources"]) with
  | mk gflag sg =>
    cases gflag with
    | false =>
      have hsg : sg = s := safe_rmtree_false_snd hg
      rw [hsg] at hg
      have h1 : migrate_assets s root src dst = (false, s) :=
        migrate_assets_aborts root src dst (Or.inr (Or.inr hg))
      rw [h1]
      show (migrate_assets s root src dst).2.lookup q0 = s.lookup q0
      rw [h1]
    | true =>
      have hsgl : ∀ p, sg.lookup p = if dst <+: p then none else s.lookup p := by
        rcases safe_rmtree_true_inv hg with ⟨hne, rfl⟩ | ⟨hex2, rfl⟩
        · intro p
          by_cases hp : dst <+: p
          · rw [if_pos hp]
            exact wfB_no_orphans hwf hne hp
          · rw [if_neg hp]
        · intro p
          exact Fs.lookup_rmtree s dst p
      have hsgu : sg.uncopyable = s.uncopyable := by
        rcases safe_rmtree_true_inv hg with ⟨_, rfl⟩ | ⟨_, rfl⟩
        · rfl
        · exact Fs.uncopyable_rmtree s dst
      have hsrc_sg : sg.lookup src = some Entry.dir := by
        rw [hsgl src, if_neg hds]
        exact Fs.isDir_lookup hdir
      have hdir_sg : sg.isDir src := by
        unfold Fs.isDir
        rw [hsrc_sg]
      cases hm1 : sg.makedirs dst with
      | none =>
        have h1 : migrate_assets s root src dst = (false, sg) :=
          migrate_assets_mkdir_fails root src dst hdir hg hm1
        have hgex : ¬ sg.pathExists dst := by
          unfold Fs.pathExists
          rw [hsgl dst, if_pos (List.prefix_refl dst)]
          simp
        have hg2 : safe_rmtree sg dst (root ++ ["Sources"]) = (true, sg) :=
          safe_rmtree_not_exists sg dst _ hgex
        have h2 : migrate_assets sg root src dst = (false, sg) :=
          migrate_assets_mkdir_fails root src dst hdir_sg hg2 hm1
        rw [h1]
        show (migrate_assets sg root src dst).2.lookup q0 = sg.lookup q0
        rw [h2]
      | some s2 =>
        have hnotblocked : sg.mkdirBlocked dst = false := by
          by_cases hb : sg.mkdirBlocked dst
          · exact absurd hm1 (by simp [Fs.makedirs, hb])
          · simpa using hb
        have hnofile : ∀ p, p <+: dst → ∀ d, sg.lookup p ≠ some (Entry.file d) := by
          intro p hp d hpd
          have hb := hnotblocked
          unfold Fs.mkdirBlocked at hb
          rw [List.any_eq_false] at hb
          have h2 := hb p (mem_prefixesOf.mpr hp)
          rw [hpd] at h2
          simp at h2
        have hs2 : ∀ p, s2.lookup p =
            if p ∈ prefixesOf dst ∧ (sg.lookup p).isNone then some Entry.dir
            else sg.lookup p := Fs.lookup_makedirs hm1
        have hs2d : ∀ p, p <+: dst → s2.lookup p = some Entry.dir := by
          intro p hp
          rw [hs2 p]
          by_cases hn : (sg.lookup p).isNone
          · rw [if_pos ⟨mem_prefixesOf.mpr hp, hn⟩]
          · rw [if_neg (fun hc => hn hc.2)]
            cases hv : sg.lookup p with
            | none =>
              exfalso
              exact hn (by rw [hv]; rfl)
            | some en =>
              cases en with
              | dir => rfl
              | file d => exact absurd hv (hnofile p hp d)
        have hs2sub : ∀ p, dst <+: p → p ≠ dst → s2.lookup p = none := by
          intro p hp hne
          rw [hs2 p, if_neg (fun hc => hne ((mem_prefixesOf.mp hc.1).eq_of_length
            (Nat.le_antisymm (mem_prefixesOf.mp hc.1).length_le hp.length_le))),
            hsgl p, if_pos hp]
        have hs2o : ∀ p, ¬ p <+: dst → ¬ dst <+: p → s2.lookup p = s.lookup p := by
          intro p hp1 hp2
          rw [hs2 p, if_neg (fun hc => hp1 (mem_prefixesOf.mp hc.1)), hsgl p, if_neg hp2]
        set s3 := s2.writeFile (dst ++ ["Contents.json"]) (FData.jdata rootJson) with hs3def
        have hs3l : ∀ p, s3.lookup p =
            if p = dst ++ ["Contents.json"] then some (Entry.file (FData.jdata rootJson))
            else s2.lookup p := by
          intro p
          rw [hs3def]
          exact Fs.lookup_writeFile s2 _ _ p
        have hs3u : s3.uncopyable = s.uncopyable := by
          rw [hs3def, Fs.uncopyable_writeFile, Fs.uncopyable_makedirs hm1, hsgu]
        have hs3d : ∀ p, p <+: dst → s3.lookup p = some Entry.dir := by
          intro p hp
          rw [hs3l p, if_neg (fun h => by
            rw [h] at hp
            have := hp.length_le
            simp at this), hs2d p hp]
        have hs3sub : ∀ p, dst <+: p → p ≠ dst → p ≠ dst ++ ["Contents.json"] →
            s3.lookup p = none := by
          intro p hp hne hncj
          rw [hs3l p, if_neg hncj, hs2sub p hp hne]
        have hs3o : ∀ p, ¬ p <+: dst → ¬ dst <+: p → s3.lookup p = s.lookup p := by
          intro p hp1 hp2
          rw [hs3l p, if_neg (fun h => hp2 (by
            rw [h]
            exact List.prefix_append _ _)), hs2o p hp1 hp2]
        have hsrc_s3 : s3.lookup src = some Entry.dir := by
          rw [hs3o src hsd hds]
          exact Fs.isDir_lookup hdir
        have hls1 : s3.listdir src = some (childrenE s3.entries src) := by
          unfold Fs.listdir
          rw [hsrc_s3]
        set G1 := buildOrder (childrenE s3.entries src) with hG1def
        have hrun1 : migrate_assets s root src dst = processGroups s3 src dst G1 := by
          rw [migrate_assets_eq_processing root src dst hdir hg hm1, ← hs3def, hls1]
        set t := (processGroups s3 src dst G1).2 with htdef
        have ht_pre : ∀ p, p <+: dst → t.lookup p = some Entry.dir := by
          intro p hp
          rw [htdef, processGroups_preserve s3 src dst G1 p
            (fun g _ => imagesetDir_not_prefix_short hp.length_le)
            (Or.inl (by rw [hs3d p hp]; rfl)), hs3d p hp]
        have ht_o : ∀ p, ¬ p <+: dst → ¬ dst <+: p → t.lookup p = s3.lookup p := by
          intro p h1 h2
          rw [htdef]
          exact processGroups_preserve s3 src dst G1 p
            (fun g _ hpre => h2 ((List.prefix_append dst _).trans hpre))
            (Or.inr (fun g _ hpre => by
              simp only [imagesetDir] at hpre
              rcases List.prefix_concat_iff.mp hpre with h | h
              · exact h2 (by rw [h]; exact List.prefix_append _ _)
              · exact h1 h))
        have ht_u : t.uncopyable = s.uncopyable := by
          rw [htdef, processGroups_uncopyable, hs3u]
        have ht_src_dir : t.lookup src = some Entry.dir := by
          rw [ht_o src hsd hds]
          exact hsrc_s3
        have hdir_t : t.isDir src := by
          unfold Fs.isDir
          rw [ht_src_dir]
        have hex_t : t.pathExists dst := by
          unfold Fs.pathExists
          rw [ht_pre dst (List.prefix_refl dst)]
          rfl
        by_cases hbad : (pathStr dst = "" ∨ pathStr dst = "/" ∨ pathStr dst = "/") ∨
            commonpathStr (root ++ ["Sources"]) dst ≠ pathStr (root ++ ["Sources"])
        · have hg2 : safe_rmtree t dst (root ++ ["Sources"]) = (false, t) := by
            simp only [safe_rmtree]
            rw [if_neg (not_not_intro hex_t)]
            rcases hbad with hb1 | hb2
            · rw [if_pos hb1]
            · by_cases hb1 : pathStr dst = "" ∨ pathStr dst = "/" ∨ pathStr dst = "/"
              · rw [if_pos hb1]
              · rw [if_neg hb1, if_pos hb2]
          have h2run : migrate_assets t root src dst = (false, t) :=
            migrate_assets_aborts root src dst (Or.inr (Or.inr hg2))
          rw [hrun1, ← htdef, h2run]
        · rw [not_or] at hbad
          obtain ⟨hb1, hb2⟩ := hbad
          have hg2 : safe_rmtree t dst (root ++ ["Sources"]) = (true, t.rmtree dst) := by
            simp only [safe_rmtree]
            rw [if_neg (not_not_intro hex_t), if_neg hb1, if_neg hb2]
          have hblock2 : (t.rmtree dst).mkdirBlocked dst = false := by
            unfold Fs.mkdirBlocked
            rw [List.any_eq_false]
            intro p hp habs
            have hp2 : p <+: dst := mem_prefixesOf.mp hp
            rw [Fs.lookup_rmtree] at habs
            by_cases hdp : dst <+: p
            · rw [if_pos hdp] at habs
              simp at habs
            · rw [if_neg hdp, ht_pre p hp2] at habs
              simp at habs
          cases hm2 : (t.rmtree dst).makedirs dst with
          | none =>
            exfalso
            rw [Fs.makedirs, hblock2] at hm2
            simp at hm2
          | some t2 =>
            set t3 := t2.writeFile (dst ++ ["Contents.json"]) (FData.jdata rootJson) with ht3def
            have ht2l : ∀ p, t2.lookup p =
                if p ∈ prefixesOf dst ∧ ((t.rmtree dst).lookup p).isNone then some Entry.dir
                else (t.rmtree dst).lookup p := Fs.lookup_makedirs hm2
            have hteq : ∀ p, t3.lookup p = s3.lookup p := by
              intro p
              by_cases hpcj : p = dst ++ ["Contents.json"]
              · rw [ht3def, Fs.lookup_writeFile, if_pos hpcj, hs3l p, if_pos hpcj]
              · rw [ht3def, Fs.lookup_writeFile, if_neg hpcj, ht2l p]
                by_cases hp1 : p <+: dst
                · by_cases hpd : dst <+: p
                  · have hpeq : p = dst :=
                      hp1.eq_of_length (Nat.le_antisymm hp1.length_le hpd.length_le)
                    subst hpeq
                    rw [if_pos ⟨mem_prefixesOf.mpr (List.prefix_refl p), by
                      rw [Fs.lookup_rmtree, if_pos (List.prefix_refl p)]
                      rfl⟩, hs3d p (List.prefix_refl p)]
                  · rw [if_neg (fun hc => by
                      have h5 := hc.2
                      rw [Fs.lookup_rmtree, if_neg hpd, ht_pre p hp1] at h5
                      simp at h5), Fs.lookup_rmtree, if_neg hpd, ht_pre p hp1, hs3d p hp1]
                · by_cases hpd : dst <+: p
                  · have hne : p ≠ dst := fun h => hp1 (by rw [h])
                    rw [if_neg (fun hc => hp1 (mem_prefixesOf.mp hc.1)),
                      Fs.lookup_rmtree, if_pos hpd, hs3sub p hpd hne hpcj]
                  · rw [if_neg (fun hc => hp1 (mem_prefixesOf.mp hc.1)),
                      Fs.lookup_rmtree, if_neg hpd, ht_o p hp1 hpd]
            have hteq_u : t3.uncopyable = s3.uncopyable := by
              rw [ht3def, Fs.uncopyable_writeFile, Fs.uncopyable_makedirs hm2,
                Fs.uncopyable_rmtree, ht_u]
              exact hs3u.symm
            have hsrc_t3 : t3.lookup src = some Entry.dir := by
              rw [hteq src]
              exact hsrc_s3
            have hls2 : t3.listdir src = some (childrenE t3.entries src) := by
              unfold Fs.listdir
              rw [hsrc_t3]
            have hrun2 : migrate_assets t root src dst =
                processGroups t3 src dst (buildOrder (childrenE t3.entries src)) := by
              rw [migrate_assets_eq_processing root src dst hdir_t hg2 hm2, ← ht3def, hls2]
            have hperm : List.Perm (childrenE t3.entries src) (childrenE s3.entries src) := by
              rw [List.perm_ext_iff_of_nodup (childrenE_nodup _ _) (childrenE_nodup _ _)]
              intro n
              rw [childrenE_mem_lookup t3 src n, childrenE_mem_lookup s3 src n, hteq]
            have hGeq : buildOrder (childrenE t3.entries src) = G1 := by
              rw [hG1def]
              exact buildOrder_eq_of_perm hperm
            rw [hrun1, ← htdef, hrun2, hGeq,
              (processGroups_congr src dst G1 t3 s3 hteq hteq_u).1 q0, htdef]

/-- Witness for C8 at a concrete well-formed state: the copied file reads
identically after the first and the second run. -/
theorem c8_migrate_twice_idempotent_witness :
    wfB fsSingleJpg = true ∧
    ¬ (["proj", "Sources", "Assets"] : PathC) <+: ["proj", "Sources", "Assets.xcassets"] ∧
    ¬ (["proj", "Sources", "Assets.xcassets"] : PathC) <+: ["proj", "Sources", "Assets"] ∧
    ((migrate_assets (migrate_assets fsSingleJpg ["proj"] ["proj", "Sources", "Assets"]
        ["proj", "Sources", "Assets.xcassets"]).2 ["proj"] ["proj", "Sources", "Assets"]
        ["proj", "Sources", "Assets.xcassets"]).2).lookup
      ["proj", "Sources", "Assets.xcassets", "y.imageset", "y.jpg"] =
    ((migrate_assets fsSingleJpg ["proj"] ["proj", "Sources", "Assets"]
        ["proj", "Sources", "Assets.xcassets"]).2).lookup
      ["proj", "Sources", "Assets.xcassets", "y.imageset", "y.jpg"] :=
  ⟨rfl, by decide, by decide,
   c8_migrate_twice_idempotent fsSingleJpg ["proj"] ["proj", "Sources", "Assets"]
     ["proj", "Sources", "Assets.xcassets"] rfl (by decide) (by decide)
     ["proj", "Sources", "Assets.xcassets", "y.imageset", "y.jpg"]⟩

/-! ### Claim theorems: the extension filter and grouping (C4) -/

/-- A source tree holding a regular image, a subdirectory named like an
image (`d.png`), and a text file. -/
def fsWithSubdir : Fs :=
  { entries := [([], .dir), (["proj"], .dir), (["proj", "Sources"], .dir),
      (["proj", "Sources", "Assets"], .dir),
      (["proj", "Sources", "Assets", "a.png"], .file (.bytes "A")),
      (["proj", "Sources", "Assets", "d.png"], .dir),
      (["proj", "Sources", "Assets", "note.txt"], .file (.bytes "n"))],
    uncopyable := [] }

/-- C4, counterexample: a subdirectory `d.png` of the source is **not**
ignored — the listing filter tests only the name, so the subdirectory joins
the base-name grouping and migration creates `d.imageset` in the
destination (the claim says every subdirectory is absent from grouping and
destination). -/
theorem c4_subdir_grouped_counterexample :
    ("d", ".png") ∈ discoverGroups ["a.png", "d.png", "note.txt"] ∧
    (fsWithSubdir.listdir ["proj", "Sources", "Assets"]).getD [] =
      ["a.png", "d.png", "note.txt"] ∧
    (migrate_assets fsWithSubdir ["proj"] ["proj", "Sources", "Assets"]
        ["proj", "Sources", "Assets.xcassets"]).2.lookup
      ["proj", "Sources", "Assets.xcassets", "d.imageset"] = some Entry.dir := by
  refine ⟨by decide, rfl, ?_⟩
  rfl

/-- C4, amended: exactly the listed entries — regular files **or
subdirectories** — whose extension is in `{.png, .jpg, .jpeg}` (compared
case-insensitively) are included in base-name grouping; entries with any
other extension are ignored silently and contribute nothing to the
grouping or to the destination: on a well-formed state with disjoint
source and destination trees, every name present directly under the
destination after a run was either already present beforehand (an aborted
run leaves the state unchanged), is the root manifest `Contents.json`, or
is `{stripped stem}.imageset` of a source entry whose extension passes the
filter. -/
theorem c4_extension_filter_characterization :
    (∀ (names : List String) (f : String),
      f ∈ filterImages names ↔ f ∈ names ∧ strLower (pySuffix f) ∈ image_extensions) ∧
    (∀ (names : List String) (g : String × String),
      g ∈ discoverGroups names ↔ ∃ f ∈ names,
        strLower (pySuffix f) ∈ image_extensions ∧
        g = (stripScale (pyStem f), pySuffix f)) ∧
    (∀ names : List String,
      discoverGroups (names.filter
        (fun f => image_extensions.contains (strLower (pySuffix f)))) =
      discoverGroups names) ∧
    (∀ (s : Fs) (root src dst : PathC) (n : String),
      wfB s = true → ¬ src <+: dst → ¬ dst <+: src →
      ((migrate_assets s root src dst).2.lookup (dst ++ [n])).isSome →
      (s.lookup (dst ++ [n])).isSome ∨ n = "Contents.json" ∨
      ∃ f, (s.lookup (src ++ [f])).isSome ∧
        strLower (pySuffix f) ∈ image_extensions ∧
        n = stripScale (pyStem f) ++ ".imageset") := by
  have hmemfilter : ∀ (names : List String) (f : String),
      f ∈ filterImages names ↔ f ∈ names ∧ strLower (pySuffix f) ∈ image_extensions := by
    intro names f
    unfold filterImages
    rw [List.mem_filter]
    constructor
    · rintro ⟨h1, h2⟩
      exact ⟨h1, by simpa [List.contains, List.elem_iff] using h2⟩
    · rintro ⟨h1, h2⟩
      exact ⟨h1, by simpa [List.contains, List.elem_iff] using h2⟩
  have hgroups : ∀ (names : List String) (g : String × String),
      g ∈ discoverGroups names ↔ ∃ f ∈ names,
        strLower (pySuffix f) ∈ image_extensions ∧
        g = (stripScale (pyStem f), pySuffix f) := by
    intro names g
    unfold discoverGroups
    rw [List.mem_dedup, List.mem_map]
    constructor
    · rintro ⟨f, hf, rfl⟩
      obtain ⟨h1, h2⟩ := (hmemfilter names f).mp hf
      exact ⟨f, h1, h2, rfl⟩
    · rintro ⟨f, h1, h2, rfl⟩
      exact ⟨f, (hmemfilter names f).mpr ⟨h1, h2⟩, rfl⟩
  refine ⟨hmemfilter, hgroups, fun names => ?_, ?_⟩
  · unfold discoverGroups filterImages
    rw [List.filter_filter]
    have hf : List.filter (fun a =>
          image_extensions.contains (strLower (pySuffix a)) &&
          image_extensions.contains (strLower (pySuffix a))) names =
        List.filter (fun f => image_extensions.contains (strLower (pySuffix f))) names := by
      apply List.filter_congr
      intro a _
      rw [Bool.and_self]
    rw [hf]
  · intro s root src dst n hwf hsd hds hsome
    by_cases hex : s.pathExists src
    case neg =>
      rw [migrate_assets_aborts root src dst (Or.inl hex)] at hsome
      exact Or.inl hsome
    case pos =>
    by_cases hdir : s.isDir src
    case neg =>
      rw [migrate_assets_aborts root src dst (Or.inr (Or.inl hdir))] at hsome
      exact Or.inl hsome
    case pos =>
    cases hg : safe_rmtree s dst (root ++ ["Sources"]) with
    | mk gflag sg =>
      cases gflag with
      | false =>
        have hsg : sg = s := safe_rmtree_false_snd hg
        rw [hsg] at hg
        rw [migrate_assets_aborts root src dst (Or.inr (Or.inr hg))] at hsome
        exact Or.inl hsome
      | true =>
        have hsgl : ∀ p, sg.lookup p = if dst <+: p then none else s.lookup p := by
          rcases safe_rmtree_true_inv hg with ⟨hne, rfl⟩ | ⟨hex2, rfl⟩
          · intro p
            by_cases hp : dst <+: p
            · rw [if_pos hp]
              exact wfB_no_orphans hwf hne hp
            · rw [if_neg hp]
          · intro p
            exact Fs.lookup_rmtree s dst p
        cases hm1 : sg.makedirs dst with
        | none =>
          exfalso
          rw [migrate_assets_mkdir_fails root src dst hdir hg hm1] at hsome
          have h5 : (sg.lookup (dst ++ [n])).isSome := hsome
          rw [hsgl (dst ++ [n]), if_pos (List.prefix_append dst [n])] at h5
          simp at h5
        | some s2 =>
          have hs2o : ∀ p, ¬ p <+: dst → ¬ dst <+: p → s2.lookup p = s.lookup p := by
            intro p hp1 hp2
            rw [Fs.lookup_makedirs hm1 p, if_neg (fun hc => hp1 (mem_prefixesOf.mp hc.1)),
              hsgl p, if_neg hp2]
          set s3 := s2.writeFile (dst ++ ["Contents.json"]) (FData.jdata rootJson) with hs3def
          have hs3l : ∀ p, s3.lookup p =
              if p = dst ++ ["Contents.json"] then some (Entry.file (FData.jdata rootJson))
              else s2.lookup p := by
            intro p
            rw [hs3def]
            exact Fs.lookup_writeFile s2 _ _ p
          have hcomp : ∀ p : PathC, src <+: p → ¬ dst <+: p ∧ ¬ p <+: dst := by
            intro p hp
            constructor
            · intro hdp
              rcases List.prefix_or_prefix_of_prefix hp hdp with h | h
              · exact hsd h
              · exact hds h
            · intro hpd
              exact hsd (hp.trans hpd)
          have hsrc_s3 : s3.lookup src = some Entry.dir := by
            rw [hs3l src, if_neg (fun h => hds (by
              rw [h]
              exact List.prefix_append _ _)), hs2o src hsd hds]
            exact Fs.isDir_lookup hdir
          have hls1 : s3.listdir src = some (childrenE s3.entries src) := by
            unfold Fs.listdir
            rw [hsrc_s3]
          have hrun1 : migrate_assets s root src dst =
              processGroups s3 src dst (buildOrder (childrenE s3.entries src)) := by
            rw [migrate_assets_eq_processing root src dst hdir hg hm1, ← hs3def, hls1]
          rw [hrun1] at hsome
          by_cases hn1 : n = "Contents.json"
          · exact Or.inr (Or.inl hn1)
          by_cases hn2 : ∃ g ∈ buildOrder (childrenE s3.entries src), n = g.1 ++ ".imageset"
          · obtain ⟨g, hgmem, hgn⟩ := hn2
            have hgd : g ∈ discoverGroups (childrenE s3.entries src) :=
              (List.perm_insertionSort pairLeR
                (discoverGroups (childrenE s3.entries src))).mem_iff.mp hgmem
            obtain ⟨f, hf1, hf2, hf3⟩ := (hgroups _ g).mp hgd
            refine Or.inr (Or.inr ⟨f, ?_, hf2, ?_⟩)
            · have h7 := (childrenE_mem_lookup s3 src f).mp hf1
              have h6 := hcomp (src ++ [f]) (List.prefix_append src [f])
              rw [hs3l (src ++ [f]), if_neg (fun h => h6.1 (by
                rw [h]
                exact List.prefix_append _ _)), hs2o (src ++ [f]) h6.2 h6.1] at h7
              exact h7
            · rw [hgn, hf3]
          · exfalso
            have hpres : (processGroups s3 src dst
                (buildOrder (childrenE s3.entries src))).2.lookup (dst ++ [n]) =
                s3.lookup (dst ++ [n]) := by
              apply processGroups_preserve
              · intro g hgmem hpre
                have hlen : (imagesetDir dst g.1).length = (dst ++ [n]).length := by
                  simp [imagesetDir]
                have heq := hpre.eq_of_length hlen
                have hn : g.1 ++ ".imageset" = n := by
                  have := List.append_cancel_left
                    (show dst ++ [g.1 ++ ".imageset"] = dst ++ [n] from heq)
                  simpa using this
                exact hn2 ⟨g, hgmem, hn.symm⟩
              · refine Or.inr ?_
                intro g hgmem hpre
                have hlen : (dst ++ [n]).length = (imagesetDir dst g.1).length := by
                  simp [imagesetDir]
                have heq := hpre.eq_of_length hlen
                have hn : n = g.1 ++ ".imageset" := by
                  have := List.append_cancel_left
                    (show dst ++ [n] = dst ++ [g.1 ++ ".imageset"] from heq)
                  simpa using this
                exact hn2 ⟨g, hgmem, hn⟩
            rw [hpres] at hsome
            rw [hs3l (dst ++ [n]), if_neg (fun h =>
              hn1 (by simpa using List.append_cancel_left h))] at hsome
            rw [Fs.lookup_makedirs hm1 (dst ++ [n]), if_neg (fun hc => by
              have h8 := (mem_prefixesOf.mp hc.1).length_le
              simp at h8)] at hsome
            rw [hsgl (dst ++ [n]), if_pos (List.prefix_append dst [n])] at hsome
            simp at hsome

/-- Witness for the amended C4 at concrete inputs: `d.png` (a subdirectory
name) is grouped, dropping the unrecognized `note.txt` leaves the grouping
unchanged, and the name `d.imageset` found under the migrated destination
traces back to an image-extension source entry. -/
theorem c4_extension_filter_characterization_witness :
    ("d.png" ∈ filterImages ["a.png", "d.png", "note.txt"] ↔
      "d.png" ∈ ["a.png", "d.png", "note.txt"] ∧
        strLower (pySuffix "d.png") ∈ image_extensions) ∧
    (("x", ".gif") ∈ discoverGroups ["x.gif"] ↔ ∃ f ∈ ["x.gif"],
        strLower (pySuffix f) ∈ image_extensions ∧
        ("x", ".gif") = (stripScale (pyStem f), pySuffix f)) ∧
    (discoverGroups ((["a.png", "d.png", "note.txt"]).filter
        (fun f => image_extensions.contains (strLower (pySuffix f)))) =
      discoverGroups ["a.png", "d.png", "note.txt"]) ∧
    ((fsWithSubdir.lookup (["proj", "Sources", "Assets.xcassets"] ++ ["d.imageset"])).isSome ∨
      "d.imageset" = "Contents.json" ∨
      ∃ f, (fsWithSubdir.lookup (["proj", "Sources", "Assets"] ++ [f])).isSome ∧
        strLower (pySuffix f) ∈ image_extensions ∧
        "d.imageset" = stripScale (pyStem f) ++ ".imageset") :=
  ⟨c4_extension_filter_characterization.1 ["a.png", "d.png", "note.txt"] "d.png",
   c4_extension_filter_characterization.2.1 ["x.gif"] ("x", ".gif"),
   c4_extension_filter_characterization.2.2.1 ["a.png", "d.png", "note.txt"],
   c4_extension_filter_characterization.2.2.2 fsWithSubdir ["proj"]
     ["proj", "Sources", "Assets"] ["proj", "Sources", "Assets.xcassets"] "d.imageset"
     rfl (by decide) (by decide) (by rfl)⟩

end MigrateAssets
